import Mathlib

/-!
Verification of the PyTorch profiler event-collection engine
(torch/csrc/profiler/collection.cpp).

The development shallowly embeds the post-collection pipeline of
`collection.cpp`:

* `endTimeNS`            -- `Result::endTimeNS` (collection.cpp:424-440),
                            with `torchOpEndNS` (367-378) inlined;
* `setParentsMain`       -- passes 1 and 2 of `TransferEvents::setParents`
                            (731-774);
* `build_tree`           -- `build_tree` (950-1039) with its helpers
                            `push_event`, `pop_event` and `mark_finished`
                            (511-515);
* `calculate_unique_tensor_ids` -- (824-942);
* `correlation_id`       -- `EventBlock::EventBlock` (172-176) and
                            `EventBlock::correlation_id` (192-198);
* `stableSortByStart`    -- the `std::stable_sort` call in
                            `RecordQueue::getRecords` (1101-1103).

Modelling conventions.  A `Result` object is split into its immutable
creation-time data (`BEvent`: start time, thread id, payload variant) and
its fields mutated during tree construction (`EvState`: parent weak
pointers, child lists, finished flags), indexed positionally by `Nat`.
`time_t` values are embedded as `Int` with the sentinel
`std::numeric_limits<time_t>::min()` written out as `tMin`.  The
`std::shared_ptr`/`weak_ptr` graph becomes `Option Nat` indices.
`ska::flat_hash_map` becomes an association list with first-binding-wins
insert (matching `insert`'s no-overwrite semantics); `flat_hash_set`
becomes a duplicate-free list.  `TORCH_INTERNAL_ASSERT` aborts the process
in C++; the embedding makes the guarded operation total (the theorems below
only traverse states in which the assertions hold, except where a claim is
specifically about degenerate input).  Recursions that C++ runs unboundedly
(the parent chase in `torchOpEndNS`, the stack walk in `pop_event`) take a
fuel argument which the pipeline instantiates with the event count; this is
exact whenever the parent graph is acyclic, which every reachable state
satisfies.
-/

/-- `std::numeric_limits<time_t>::min()`, the "no end time recorded"
sentinel (`time_t` is a 64-bit signed integer). -/
def tMin : Int := -9223372036854775808

/-- The variant payload of `ExtraFields<...>` as far as the post-collection
passes read it: `EventType` tags and the per-kind fields used by
`Result::endTimeNS`, `build_tree` and `TransferEvents::setParents`.
For `torchOp` the fields are `end_time_ns_` and `forward_tid_`; for
`backend`, `end_time_us_`; for `kineto`, `duration_us_`, `flow.id`,
`flow.type`, `flow.start` and `linked_activity_` (as a result index). -/
inductive Payload where
  | torchOp (end_time_ns : Int) (forward_tid : Nat)
  | backend (end_time_us : Int)
  | allocation
  | outOfMemory
  | kineto (duration_us : Int) (flow_id : Nat) (flow_type : Nat)
      (flow_start : Bool) (linked : Option Nat)
  | pyCall (end_time_ns : Int)
  | pyCCall (end_time_ns : Int)
  deriving DecidableEq

/-- The immutable creation-time data of a `Result`
(`start_time_ns_`, `start_tid_`, and the variant payload). -/
structure BEvent where
  start_time_ns : Int
  start_tid : Nat
  payload : Payload
  deriving DecidableEq

/-- The fields of a `Result` that tree construction mutates:
`parent_` (a weak pointer, as an optional index), `children_`
(an owned vector of indices) and `finished_`, stored positionally
parallel to the event list. -/
structure EvState where
  parents : List (Option Nat)
  childrenL : List (List Nat)
  finishedL : List Bool
  deriving DecidableEq

/-- All-unset mutable state for `n` events: no parent, no children,
not finished (the state of freshly materialized `Result`s). -/
def initEv (n : Nat) : EvState :=
  ⟨List.replicate n none, List.replicate n [], List.replicate n false⟩

/-- Read `r->parent_` (out-of-range reads as expired, i.e. `none`). -/
def parentOf (ev : EvState) (i : Nat) : Option Nat :=
  (ev.parents[i]?).getD none

/-- Read `r->children_`. -/
def childrenOf (ev : EvState) (i : Nat) : List Nat :=
  (ev.childrenL[i]?).getD []

/-- Read `r->finished_`. -/
def finishedOf (ev : EvState) (i : Nat) : Bool :=
  (ev.finishedL[i]?).getD false

/-- Write `r->parent_`. -/
def setParent (ev : EvState) (i : Nat) (v : Option Nat) : EvState :=
  { ev with parents := ev.parents.set i v }

/-- `parent->children_.push_back(child)`. -/
def addChild (ev : EvState) (p c : Nat) : EvState :=
  { ev with childrenL := ev.childrenL.set p (childrenOf ev p ++ [c]) }

/-- `mark_finished` (collection.cpp:511-515): set `finished_`.  The two
`TORCH_INTERNAL_ASSERT`s it carries are: `!r->finished_` on entry, and
`r->endTimeNS() >= r->start_time_ns_` afterwards; the latter can never
fire because `endTimeNS` itself clamps to `start_time_ns_` when finished
(see `endTimeNS` below). -/
def mark_finished (ev : EvState) (i : Nat) : EvState :=
  { ev with finishedL := ev.finishedL.set i true }

/-- Association-list lookup with `Nat` keys, the embedding of
`ska::flat_hash_map::find` (first binding wins, as the maps here are only
extended by no-overwrite `insert`). -/
def alookup (k : Nat) : List (Nat × Nat) → Option Nat
  | [] => none
  | (a, v) :: rest => if a = k then some v else alookup k rest

/-- The index list `[k, k+1, ..., k+m-1]`: iteration order of the
`results` vector. -/
def idxFrom : Nat → Nat → List Nat
  | _, 0 => []
  | k, m + 1 => k :: idxFrom (k + 1) m

/-- The epilogue of `Result::endTimeNS` (collection.cpp:433-439): once the
event is finished, an end time earlier than the start time fails the
`SOFT_ASSERT` and is replaced by the start time. -/
def endClamp (fin : Bool) (start raw : Int) : Int :=
  cond fin (if raw < start then start else raw) raw

/-- The body of `Result::endTimeNS` (collection.cpp:424-440) with
`torchOpEndNS` (367-378) inlined for the `TorchOp` alternative,
parameterized by the evaluator `rec` used for the parent's `endTimeNS()`
call: a `TorchOp` that is finished and still carries the `tMin` sentinel
borrows its parent's end time. -/
def endTimeStep (base : List BEvent) (ev : EvState) (rec : Nat → Int)
    (i : Nat) : Int :=
  match base[i]? with
  | none => 0
  | some b =>
    endClamp (finishedOf ev i) b.start_time_ns
      (match b.payload with
       | .torchOp e _ =>
         if finishedOf ev i = true ∧ e = tMin then
           match parentOf ev i with
           | some p => rec p
           | none => e
         else e
       | .backend eUs => eUs * 1000
       | .allocation => b.start_time_ns
       | .outOfMemory => b.start_time_ns
       | .kineto dUs _ _ _ _ => b.start_time_ns + dUs * 1000
       | .pyCall e => e
       | .pyCCall e => e)

/-- `Result::endTimeNS` with the parent chase fueled (C++ recurses
directly; out of fuel, the chase yields the sentinel the event itself
carries, which is exactly what C++'s base case returns when the parent
is expired). -/
def endTimeNS (base : List BEvent) (ev : EvState) : Nat → Nat → Int
  | 0, i => endTimeStep base ev (fun _ => tMin) i
  | fuel + 1, i => endTimeStep base ev (endTimeNS base ev fuel) i

/-- The modelled value of the `libkineto::kLinkAsyncCpuGpu` flow-kind
constant; only equality against it matters. -/
def kLinkAsyncCpuGpu : Nat := 1

/-- First pass of `TransferEvents::setParents` (collection.cpp:732-753):
walk all results; for every Kineto event whose flow is an async CPU-GPU
link and a flow start, record it in the flow map (first insert wins), and
set every Kineto event's parent to its linked activity. -/
def setParentsPass1 (base : List BEvent) :
    List (Nat × Nat) × EvState → List Nat → List (Nat × Nat) × EvState
  | acc, [] => acc
  | (mp, ev), i :: rest =>
    match base[i]? with
    | some b =>
      match b.payload with
      | .kineto _ fid fty fst linked =>
        let mp' :=
          if fty = kLinkAsyncCpuGpu ∧ fst = true ∧ (alookup fid mp).isNone
          then mp ++ [(fid, i)] else mp
        setParentsPass1 base (mp', setParent ev i linked) rest
      | _ => setParentsPass1 base (mp, ev) rest
    | none => setParentsPass1 base (mp, ev) rest

/-- One step of the second pass of `TransferEvents::setParents`
(collection.cpp:755-774) at result index `i`: for a Kineto event, a flow
continuation (async CPU-GPU link, not a flow start) whose flow id is in
the flow map has its parent reassigned to the flow start; then, if a
parent is set, the event is appended to the parent's children and marked
finished. -/
def setParentsPass2Step (base : List BEvent) (mp : List (Nat × Nat))
    (ev : EvState) (i : Nat) : EvState :=
  match base[i]? with
  | some b =>
    match b.payload with
    | .kineto _ fid fty fst _ =>
      let ev1 :=
        match alookup fid mp with
        | some p =>
          if fty = kLinkAsyncCpuGpu ∧ fst = false
          then setParent ev i (some p) else ev
        | none => ev
      match parentOf ev1 i with
      | some p => mark_finished (addChild ev1 p i) i
      | none => ev1
    | _ => ev
  | none => ev

/-- The flow map built by the first pass of `setParents`. -/
def flowMap (base : List BEvent) : List (Nat × Nat) :=
  (setParentsPass1 base ([], initEv base.length) (idxFrom 0 base.length)).1

/-- Passes 1 and 2 of `TransferEvents::setParents` (collection.cpp:731-774)
run over freshly merged results (whose parents the first pass asserts to be
expired, hence the `initEv` start state).  The trailing thread-id backfill
(`setKinetoTID`, collection.cpp:776-781) only rewrites `start_tid_` fields
and is not modelled. -/
def setParentsMain (base : List BEvent) : EvState :=
  let p1 := setParentsPass1 base ([], initEv base.length) (idxFrom 0 base.length)
  (idxFrom 0 base.length).foldl (setParentsPass2Step base p1.1) p1.2

/-- `forward_tid_` as `build_tree` reads it through `visit`: the
`TorchOp` field, `0` for every other alternative. -/
def fwdTidB (b : BEvent) : Nat :=
  match b.payload with
  | .torchOp _ f => f
  | _ => 0

/-- Whether the payload holds `ExtraFields<EventType::Kineto>`. -/
def isKinetoB (b : BEvent) : Bool :=
  match b.payload with
  | .kineto _ _ _ _ _ => true
  | _ => false

/-- Whether the payload is an `Allocation` or `OutOfMemory` record. -/
def isAllocOOMB (b : BEvent) : Bool :=
  match b.payload with
  | .allocation => true
  | .outOfMemory => true
  | _ => false

/-- The start time of event `i` (`0` out of range, never consulted there). -/
def startAt (base : List BEvent) (i : Nat) : Int :=
  match base[i]? with
  | some b => b.start_time_ns
  | none => 0

/-- The state threaded through `build_tree` (collection.cpp:950-954):
the mutable per-event fields, the `stacks` map from thread id to the
currently open frame, and the `end_events_` priority queue (kept as the
list of queued indices; the minimum is recomputed on demand, which agrees
with `std::priority_queue` because a queued event's end time is stable:
it was strictly above its start when pushed, hence is not the sentinel
and is unaffected by `finished_` flips). -/
structure BTState where
  ev : EvState
  stacks_ : List (Nat × Nat)
  endEvents : List Nat
  deriving DecidableEq

/-- `stacks[tid] = v`. -/
def updStack (st : List (Nat × Nat)) (k v : Nat) : List (Nat × Nat) :=
  (k, v) :: st.filter (fun kv => kv.1 ≠ k)

/-- `stacks.erase(tid)`. -/
def delStack (st : List (Nat × Nat)) (k : Nat) : List (Nat × Nat) :=
  st.filter (fun kv => kv.1 ≠ k)

/-- The parent lookup of `push_event` (collection.cpp:973-981): the open
frame of the event's thread, else (for a nonzero `forward_tid_`) the open
frame of the forward thread. -/
def pushParentIdx (s : BTState) (b : BEvent) : Option Nat :=
  match alookup b.start_tid s.stacks_ with
  | some p => some p
  | none =>
    if fwdTidB b = 0 then none else alookup (fwdTidB b) s.stacks_

/-- The tail of `push_event` (collection.cpp:988-997) after the parent
has been attached: an event whose end time is strictly above its start
becomes the open frame and is queued for closing; one with the sentinel
end time becomes the open frame without being queued; any other event is
finished immediately. -/
def pushFinal (base : List BEvent) (s : BTState) (i : Nat) (b : BEvent)
    (ev1 : EvState) : BTState :=
  let et := endTimeNS base ev1 base.length i
  if b.start_time_ns < et then
    { ev := ev1, stacks_ := updStack s.stacks_ b.start_tid i,
      endEvents := s.endEvents ++ [i] }
  else if et = tMin then
    { ev := ev1, stacks_ := updStack s.stacks_ b.start_tid i,
      endEvents := s.endEvents }
  else
    { ev := mark_finished ev1 i, stacks_ := s.stacks_,
      endEvents := s.endEvents }

/-- The non-skipped part of `push_event` (collection.cpp:967-997): attach
the event to the located parent (collection.cpp:983-986), then dispatch
on its end time. -/
def pushCore (base : List BEvent) (s : BTState) (i : Nat) (b : BEvent) :
    BTState :=
  pushFinal base s i b
    (match pushParentIdx s b with
     | some p => addChild (setParent s.ev i (some p)) p i
     | none => s.ev)

/-- `push_event` inside `build_tree` (collection.cpp:956-998).  Kineto
events already marked finished by the external-trace merge are skipped
outright (collection.cpp:957-965); everything else runs `pushCore`. -/
def push_event (base : List BEvent) (s : BTState) (i : Nat) : BTState :=
  match base[i]? with
  | none => s
  | some b =>
    if isKinetoB b && finishedOf s.ev i then s
    else pushCore base s i b

/-- The stack walk in `pop_event` (collection.cpp:1009-1014): finish every
frame from the open frame down to (but excluding) the target, following
parent links.  C++ walks without fuel and asserts each link is alive; the
fuel is instantiated with the event count, enough for any acyclic chain. -/
def walkUp (ev : EvState) : Nat → Nat → Nat → EvState
  | 0, _, _ => ev
  | f + 1, frame, target =>
    if frame = target then ev
    else
      let ev' := mark_finished ev frame
      match parentOf ev' frame with
      | some p => walkUp ev' f p target
      | none => ev'

/-- `pop_event` inside `build_tree` (collection.cpp:1000-1022): a frame
already finished by a previous pop is skipped; otherwise walk the open
frames of the event's thread down to the event, finish them all, finish
the event, and replace the thread's open frame by the event's parent
(erasing it if the event was a root). -/
def pop_event (base : List BEvent) (s : BTState) (i : Nat) : BTState :=
  if finishedOf s.ev i then s
  else
    match base[i]? with
    | none => s
    | some b =>
      match alookup b.start_tid s.stacks_ with
      | none => s
      | some frame =>
        let ev1 := walkUp s.ev base.length frame i
        let ev2 := mark_finished ev1 i
        let st1 := delStack s.stacks_ b.start_tid
        let st2 :=
          match parentOf ev2 i with
          | some p => updStack st1 b.start_tid p
          | none => st1
        { ev := ev2, stacks_ := st2, endEvents := s.endEvents }

/-- The index the priority queue `end_events_` would surface: the queued
index with minimal `endTimeNS` (earliest-queued among ties). -/
def queueMin (base : List BEvent) (ev : EvState) (q : List Nat) : Option Nat :=
  q.foldl
    (fun acc j =>
      match acc with
      | none => some j
      | some m =>
        if endTimeNS base ev base.length j < endTimeNS base ev base.length m
        then some j else acc)
    none

/-- The pop phase at the head of the stack replay loop
(collection.cpp:1026-1030): while the queue's top has an end time strictly
below the incoming start time `t`, pop it and remove it from the queue.
The fuel is instantiated with the queue length. -/
def popLoop (base : List BEvent) : BTState → Int → Nat → BTState
  | s, _, 0 => s
  | s, t, f + 1 =>
    match queueMin base s.ev s.endEvents with
    | none => s
    | some j =>
      if endTimeNS base s.ev base.length j < t then
        let s' := pop_event base s j
        popLoop base { s' with endEvents := s'.endEvents.erase j } t f
      else s

/-- The cleanup loop (collection.cpp:1035-1038): pop every remaining
queued event. -/
def drainLoop (base : List BEvent) : BTState → Nat → BTState
  | s, 0 => s
  | s, f + 1 =>
    match queueMin base s.ev s.endEvents with
    | none => s
    | some j =>
      let s' := pop_event base s j
      drainLoop base { s' with endEvents := s'.endEvents.erase j } f

/-- The stack replay loop of `build_tree` (collection.cpp:1024-1038) over
the listed indices, followed by the cleanup drain. -/
def buildTreeGo (base : List BEvent) : BTState → List Nat → BTState
  | s, [] => drainLoop base s s.endEvents.length
  | s, i :: rest =>
    let s1 := popLoop base s (startAt base i) s.endEvents.length
    buildTreeGo base (push_event base s1 i) rest

/-- `build_tree` (collection.cpp:950-1039) on time-sorted events: replay
every event index in order against the open-frame map and the pending-end
queue, then drain.  `ev0` is the incoming mutable state (all-unset except
for events the external-trace merge already finalized). -/
def build_tree (base : List BEvent) (ev0 : EvState) : EvState :=
  (buildTreeGo base { ev := ev0, stacks_ := [], endEvents := [] }
    (idxFrom 0 base.length)).ev

/-- A `TensorMetadata` entry of a `TorchOp`'s recorded inputs, as
`calculate_unique_tensor_ids` reads it: the `impl_` address (the
high-level handle) and the `data_` storage address, either possibly
null.  (A disengaged `optional<TensorMetadata>` is represented the same
way as a null `impl_`: both fail the `m.has_value() && m->impl_ &&
m->data_` guard.) -/
structure PTensorMeta where
  impl : Option Nat
  data : Option Nat
  deriving DecidableEq

/-- An event as `calculate_unique_tensor_ids` (collection.cpp:824-942)
dispatches on it: a torch op with its input tensor metadata, an
allocation record (`ptr_`, signed `alloc_size_`; negative size is a
free), or any other event kind (ignored by the resolver). -/
inductive PEvent where
  | torchOp (inputs : List PTensorMeta)
  | alloc (ptr : Nat) (alloc_size : Int)
  | other
  deriving DecidableEq

/-- The final `TensorID` assignments written back by step 4 of
`calculate_unique_tensor_ids`, shaped like the input: one optional id per
op-input metadata slot and one per allocation record (`none` = the
record's `id_` field was never assigned). -/
inductive PSlots where
  | torchOp (ids : List (Option Nat))
  | alloc (id : Option Nat)
  | other
  deriving DecidableEq

/-- A `TensorStoragePair` (collection.cpp:837-843): handle address,
provisional storage cluster id, and the back-reference used for
write-back, here the position of the slot: (event index, input index for
op inputs / `none` for allocation records). -/
structure TSPair where
  impl : Option Nat
  storage_id : Nat
  ref : Nat × Option Nat
  deriving DecidableEq

/-- The state of step 1 of `calculate_unique_tensor_ids`
(collection.cpp:848-894): the fresh-id counter, the live-address map,
the accumulated `TensorStoragePair`s, and the set of cluster ids
referenced by some op input (`tensor_set`). -/
structure Step1State where
  current_id : Nat
  live : List (Nat × Nat)
  tensors : List TSPair
  tensorSet : List Nat
  deriving DecidableEq

/-- The `lookup` lambda of step 1 (collection.cpp:851-855): insert the
address with the next fresh id if it is not live, bump the counter
exactly when the insert took place, and return the (old or new) id. -/
def s1lookup (st : Step1State) (data : Nat) : Nat × Step1State :=
  match alookup data st.live with
  | some id => (id, st)
  | none =>
    (st.current_id,
      { st with live := st.live ++ [(data, st.current_id)],
                current_id := st.current_id + 1 })

/-- Duplicate-free insertion into the modelled `flat_hash_set`. -/
def insertSet (x : Nat) (s : List Nat) : List Nat :=
  if x ∈ s then s else s ++ [x]

/-- Step 1 handling of one op's inputs (collection.cpp:860-867): every
metadata entry with non-null handle and storage address contributes its
cluster id to `tensor_set` and a `TensorStoragePair`. -/
def step1Op (ei : Nat) : Step1State → List PTensorMeta → Nat → Step1State
  | st, [], _ => st
  | st, m :: rest, mi =>
    let st' :=
      match m.impl, m.data with
      | some _, some d =>
        let r := s1lookup st d
        { r.2 with
          tensorSet := insertSet r.1 r.2.tensorSet,
          tensors := r.2.tensors ++ [⟨m.impl, r.1, (ei, some mi)⟩] }
      | _, _ => st
    step1Op ei st' rest (mi + 1)

/-- Step 1 handling of one allocation record (collection.cpp:869-881):
contribute a pair with a null handle, then, for a free (negative size),
drop the address from the live map so the next allocation there gets a
fresh cluster id. -/
def step1Alloc (ei ptr : Nat) (size : Int) (st : Step1State) : Step1State :=
  let r := s1lookup st ptr
  let st2 := { r.2 with tensors := r.2.tensors ++ [⟨none, r.1, (ei, none)⟩] }
  if size < 0 then
    { st2 with live := st2.live.filter (fun kv => kv.1 ≠ ptr) }
  else st2

/-- Step 1 of `calculate_unique_tensor_ids`: walk events in (time) order
threading the clustering state. -/
def step1Go : Nat → List PEvent → Step1State → Step1State
  | _, [], st => st
  | ei, e :: rest, st =>
    let st' :=
      match e with
      | .torchOp inputs => step1Op ei st inputs 0
      | .alloc ptr sz => step1Alloc ei ptr sz st
      | .other => st
    step1Go (ei + 1) rest st'

/-- The completed step-1 state for an event list. -/
def step1 (events : List PEvent) : Step1State :=
  step1Go 0 events ⟨0, [], [], []⟩

/-- The prune at the end of step 1 (collection.cpp:885-894): keep only
pairs whose cluster id was referenced by some op input. -/
def keptTensors (events : List PEvent) : List TSPair :=
  (step1 events).tensors.filter
    (fun t => decide (t.storage_id ∈ (step1 events).tensorSet))

/-- Duplicate-free insertion of a pair into the modelled
`same_group_set`. -/
def insertPairSet (x : Nat × Nat) (s : List (Nat × Nat)) : List (Nat × Nat) :=
  if x ∈ s then s else s ++ [x]

/-- Step 2 of `calculate_unique_tensor_ids` (collection.cpp:897-917):
for each kept pair with a non-null handle, look the handle up in
`impl_map` (inserting its cluster id if absent) and record the sorted
equivalence edge between the handle's first-seen cluster id and this
pair's cluster id. -/
def step2 : List TSPair → List (Nat × Nat) → List (Nat × Nat) → List (Nat × Nat)
  | [], _, grp => grp
  | t :: rest, imap, grp =>
    match t.impl with
    | none => step2 rest imap grp
    | some h =>
      let sid0 := (alookup h imap).getD t.storage_id
      let imap' :=
        if (alookup h imap).isSome then imap else imap ++ [(h, t.storage_id)]
      let pair :=
        if sid0 < t.storage_id then (sid0, t.storage_id) else (t.storage_id, sid0)
      step2 rest imap' (insertPairSet pair grp)

/-- Lexicographic order on equivalence edges (`std::pair::operator<`). -/
def pairLe (a b : Nat × Nat) : Prop :=
  a.1 < b.1 ∨ (a.1 = b.1 ∧ a.2 ≤ b.2)

instance (a b : Nat × Nat) : Decidable (pairLe a b) := by
  unfold pairLe; infer_instance

/-- Stable insertion used to model `std::sort` on the (duplicate-free)
edge list; on a duplicate-free list any comparison sort yields this
unique sorted order. -/
def pairInsert (x : Nat × Nat) : List (Nat × Nat) → List (Nat × Nat)
  | [] => [x]
  | y :: ys => if pairLe x y then x :: y :: ys else y :: pairInsert x ys

/-- `std::sort(unique_pairs.begin(), unique_pairs.end())`
(collection.cpp:927). -/
def sortPairs (l : List (Nat × Nat)) : List (Nat × Nat) :=
  l.foldr pairInsert []

/-- Step 3 of `calculate_unique_tensor_ids` (collection.cpp:919-935):
walk the sorted edges; give the first component the next compact id if
unseen, and propagate the first component's id to the second if the
second is unseen (first-seen id wins throughout). -/
def step3 : List (Nat × Nat) → List (Nat × Nat) → Nat → List (Nat × Nat)
  | [], imap, _ => imap
  | (a, b) :: rest, imap, cur =>
    match alookup a imap with
    | some v =>
      step3 rest (if (alookup b imap).isSome then imap else imap ++ [(b, v)]) cur
    | none =>
      let imap1 := imap ++ [(a, cur)]
      step3 rest (if (alookup b imap1).isSome then imap1 else imap1 ++ [(b, cur)])
        (cur + 1)

/-- The `id_map` of step 3 for an event list. -/
def finalIdMap (events : List PEvent) : List (Nat × Nat) :=
  step3 (sortPairs (step2 (keptTensors events) [] [])) [] 0

/-- Step 4's write-back target for one slot (collection.cpp:939-941):
if the slot's pair survived the prune, its cluster's final id; otherwise
the slot's `id_` stays unassigned. -/
def slotId (kept : List TSPair) (idMap : List (Nat × Nat))
    (r : Nat × Option Nat) : Option Nat :=
  match kept.find? (fun t => decide (t.ref = r)) with
  | some t => alookup t.storage_id idMap
  | none => none

/-- Helper: build the per-input id list of one op at event index `ei`. -/
def opSlotIds (kept : List TSPair) (idMap : List (Nat × Nat)) (ei : Nat) :
    Nat → List PTensorMeta → List (Option Nat)
  | _, [] => []
  | mi, _ :: rest => slotId kept idMap (ei, some mi) :: opSlotIds kept idMap ei (mi + 1) rest

/-- Helper: assemble the written-back slots for every event. -/
def writeBack (kept : List TSPair) (idMap : List (Nat × Nat)) :
    Nat → List PEvent → List PSlots
  | _, [] => []
  | ei, e :: rest =>
    (match e with
     | .torchOp inputs => PSlots.torchOp (opSlotIds kept idMap ei 0 inputs)
     | .alloc _ _ => PSlots.alloc (slotId kept idMap (ei, none))
     | .other => PSlots.other) :: writeBack kept idMap (ei + 1) rest

/-- `calculate_unique_tensor_ids` (collection.cpp:824-942) end to end:
cluster by live storage address, prune clusters no op input referenced,
union clusters sharing a handle, coalesce to compact final ids, and
report the assignment written back into each contributing record. -/
def calculate_unique_tensor_ids (events : List PEvent) : List PSlots :=
  writeBack (keptTensors events) (finalIdMap events) 0 events

/-- `EventBlock::EventBlock` (collection.cpp:172-176): each new chunk
takes a fresh value of the process-wide atomic counter and derives its
base id `1 + ChunkSize * counter` in `uint64_t` arithmetic. -/
def id_start (ChunkSize counterVal : Nat) : Nat :=
  (1 + ChunkSize * counterVal) % 2 ^ 64

/-- `EventBlock::correlation_id` (collection.cpp:192-198): the chunk's
base id plus the event's positional offset inside the chunk (the asserted
bound `offset < ChunkSize` is a hypothesis of the theorems), again in
`uint64_t` arithmetic. -/
def correlation_id (ChunkSize counterVal offset : Nat) : Nat :=
  (id_start ChunkSize counterVal + offset) % 2 ^ 64

/-- Stable insertion by start time: the inserted element goes in front of
the first element not strictly before it, so an element placed later in
the fold (i.e. earlier in the input) precedes any element it ties with. -/
def sortInsert (x : BEvent) : List BEvent → List BEvent
  | [] => [x]
  | y :: ys =>
    if x.start_time_ns ≤ y.start_time_ns then x :: y :: ys
    else y :: sortInsert x ys

/-- The `std::stable_sort` over results by `start_time_ns_` in
`RecordQueue::getRecords` (collection.cpp:1101-1103).  `stable_sort`'s
contract (ascending by the strict comparator, ties in original order)
determines its output uniquely, and this insertion sort satisfies it. -/
def stableSortByStart (l : List BEvent) : List BEvent :=
  l.foldr sortInsert []

/-! ### Basic lemmas about the embedding's containers and accessors -/

theorem alookup_mem {k v : Nat} :
    ∀ {l : List (Nat × Nat)}, alookup k l = some v → (k, v) ∈ l := by
  intro l
  induction l with
  | nil => intro h; simp [alookup] at h
  | cons kv rest ih =>
    intro h
    unfold alookup at h
    by_cases hk : kv.1 = k
    · rw [show kv = (kv.1, kv.2) from rfl] at h ⊢
      simp only [hk, if_pos rfl] at h
      cases h
      simp [hk]
    · rw [show kv = (kv.1, kv.2) from rfl] at h
      simp only [if_neg hk] at h
      exact List.mem_cons_of_mem _ (ih h)

theorem mem_idxFrom {j : Nat} : ∀ {m a : Nat}, j ∈ idxFrom a m ↔ a ≤ j ∧ j < a + m := by
  intro m
  induction m with
  | zero => intro a; simp [idxFrom]
  | succ m ih =>
    intro a
    simp only [idxFrom, List.mem_cons, ih]
    omega

theorem idxFrom_append : ∀ (m₁ m₂ a : Nat),
    idxFrom a (m₁ + m₂) = idxFrom a m₁ ++ idxFrom (a + m₁) m₂ := by
  intro m₁
  induction m₁ with
  | zero => intro m₂ a; simp [idxFrom]
  | succ m ih =>
    intro m₂ a
    have h1 : m + 1 + m₂ = (m + m₂) + 1 := by omega
    rw [h1]
    simp only [idxFrom, List.cons_append]
    rw [ih m₂ (a + 1)]
    have h2 : a + 1 + m = a + (m + 1) := by omega
    rw [h2]

theorem idxFrom_split {i n : Nat} (h : i < n) :
    idxFrom 0 n = idxFrom 0 i ++ i :: idxFrom (i + 1) (n - i - 1) := by
  have h1 : n = i + (1 + (n - i - 1)) := by omega
  rw [h1, idxFrom_append i (1 + (n - i - 1)) 0]
  have h2 : 1 + (n - i - 1) = (n - i - 1) + 1 := by omega
  rw [h2]
  simp [idxFrom]

/-- Length bookkeeping: all three mutable-field lists have length `n`. -/
def lenOk (n : Nat) (ev : EvState) : Prop :=
  ev.parents.length = n ∧ ev.childrenL.length = n ∧ ev.finishedL.length = n

theorem lenOk_initEv (n : Nat) : lenOk n (initEv n) := by
  simp [lenOk, initEv]

theorem lenOk_setParent {n : Nat} {ev : EvState} (h : lenOk n ev) (i : Nat)
    (v : Option Nat) : lenOk n (setParent ev i v) := by
  simpa [lenOk, setParent] using h

theorem lenOk_addChild {n : Nat} {ev : EvState} (h : lenOk n ev) (p c : Nat) :
    lenOk n (addChild ev p c) := by
  simpa [lenOk, addChild] using h

theorem lenOk_mark_finished {n : Nat} {ev : EvState} (h : lenOk n ev) (i : Nat) :
    lenOk n (mark_finished ev i) := by
  simpa [lenOk, mark_finished] using h

theorem parentOf_mark_finished (ev : EvState) (i j : Nat) :
    parentOf (mark_finished ev i) j = parentOf ev j := rfl

theorem parentOf_addChild (ev : EvState) (p c j : Nat) :
    parentOf (addChild ev p c) j = parentOf ev j := rfl

theorem childrenOf_setParent (ev : EvState) (i : Nat) (v : Option Nat) (j : Nat) :
    childrenOf (setParent ev i v) j = childrenOf ev j := rfl

theorem childrenOf_mark_finished (ev : EvState) (i j : Nat) :
    childrenOf (mark_finished ev i) j = childrenOf ev j := rfl

theorem finishedOf_setParent (ev : EvState) (i : Nat) (v : Option Nat) (j : Nat) :
    finishedOf (setParent ev i v) j = finishedOf ev j := rfl

theorem finishedOf_addChild (ev : EvState) (p c j : Nat) :
    finishedOf (addChild ev p c) j = finishedOf ev j := rfl

theorem parentOf_setParent_ne {i j : Nat} (ev : EvState) (v : Option Nat)
    (h : i ≠ j) : parentOf (setParent ev i v) j = parentOf ev j := by
  unfold parentOf setParent
  rw [List.getElem?_set_ne h]

theorem parentOf_setParent_self {i : Nat} (ev : EvState) (v : Option Nat)
    (h : i < ev.parents.length) : parentOf (setParent ev i v) i = v := by
  unfold parentOf setParent
  rw [List.getElem?_set_self h]
  rfl

theorem childrenOf_addChild_ne {p j : Nat} (ev : EvState) (c : Nat)
    (h : p ≠ j) : childrenOf (addChild ev p c) j = childrenOf ev j := by
  unfold childrenOf addChild
  rw [List.getElem?_set_ne h]

theorem childrenOf_addChild_self {p : Nat} (ev : EvState) (c : Nat)
    (h : p < ev.childrenL.length) :
    childrenOf (addChild ev p c) p = childrenOf ev p ++ [c] := by
  unfold childrenOf addChild
  rw [List.getElem?_set_self h]
  rfl

theorem finishedOf_mark_finished_ne {i j : Nat} (ev : EvState)
    (h : i ≠ j) : finishedOf (mark_finished ev i) j = finishedOf ev j := by
  unfold finishedOf mark_finished
  rw [List.getElem?_set_ne h]

theorem finishedOf_mark_finished_self {i : Nat} (ev : EvState)
    (h : i < ev.finishedL.length) :
    finishedOf (mark_finished ev i) i = true := by
  unfold finishedOf mark_finished
  rw [List.getElem?_set_self h]
  rfl

theorem finishedOf_mark_finished_mono {i j : Nat} {ev : EvState}
    (h : finishedOf ev j = true) : finishedOf (mark_finished ev i) j = true := by
  by_cases hij : i = j
  · subst hij
    have : i < ev.finishedL.length := by
      by_contra hlt
      unfold finishedOf at h
      rw [List.getElem?_eq_none (by omega)] at h
      simp at h
    exact finishedOf_mark_finished_self ev this
  · rw [finishedOf_mark_finished_ne ev hij]; exact h

theorem parentOf_lt_of_some {ev : EvState} {j : Nat} {p : Nat}
    (h : parentOf ev j = some p) : j < ev.parents.length := by
  by_contra hlt
  unfold parentOf at h
  rw [List.getElem?_eq_none (by omega)] at h
  simp at h

theorem childrenOf_lt_of_mem {ev : EvState} {p j : Nat}
    (h : j ∈ childrenOf ev p) : p < ev.childrenL.length := by
  by_contra hlt
  unfold childrenOf at h
  rw [List.getElem?_eq_none (by omega)] at h
  simp at h

theorem finishedOf_lt_of_true {ev : EvState} {j : Nat}
    (h : finishedOf ev j = true) : j < ev.finishedL.length := by
  by_contra hlt
  unfold finishedOf at h
  rw [List.getElem?_eq_none (by omega)] at h
  simp at h

theorem parentOf_initEv (n j : Nat) : parentOf (initEv n) j = none := by
  unfold parentOf initEv
  by_cases h : j < n
  · rw [List.getElem?_replicate_of_lt h]; rfl
  · rw [List.getElem?_eq_none (by simp only [List.length_replicate]; omega)]; rfl

theorem childrenOf_initEv (n j : Nat) : childrenOf (initEv n) j = [] := by
  unfold childrenOf initEv
  by_cases h : j < n
  · rw [List.getElem?_replicate_of_lt h]; rfl
  · rw [List.getElem?_eq_none (by simp only [List.length_replicate]; omega)]; rfl

theorem finishedOf_initEv (n j : Nat) : finishedOf (initEv n) j = false := by
  unfold finishedOf initEv
  by_cases h : j < n
  · rw [List.getElem?_replicate_of_lt h]; rfl
  · rw [List.getElem?_eq_none (by simp only [List.length_replicate]; omega)]; rfl

/-! ### Basic facts about `endTimeNS` -/

theorem endClamp_ge (start raw : Int) : start ≤ endClamp true start raw := by
  show start ≤ if raw < start then start else raw
  split <;> omega

/-- `endTimeNS` at any fuel is `endTimeStep` at some parent evaluator. -/
theorem endTimeNS_eq_step (base : List BEvent) (ev : EvState) (fuel i : Nat) :
    ∃ rec, endTimeNS base ev fuel i = endTimeStep base ev rec i := by
  cases fuel with
  | zero => exact ⟨_, rfl⟩
  | succ f => exact ⟨_, rfl⟩

/-- Once an event is finished, the reported end time is never earlier
than the start time: the `SOFT_ASSERT` fallback in `Result::endTimeNS`
clamps it. -/
theorem endTimeNS_ge_start_of_finished {base : List BEvent} {ev : EvState}
    {i : Nat} {b : BEvent} (fuel : Nat) (hb : base[i]? = some b)
    (hf : finishedOf ev i = true) :
    b.start_time_ns ≤ endTimeNS base ev fuel i := by
  obtain ⟨rec, hr⟩ := endTimeNS_eq_step base ev fuel i
  rw [hr]
  simp only [endTimeStep, hb, hf]
  exact endClamp_ge _ _

/-- `Allocation` and `OutOfMemory` events report their start time as
their end time (the `ATTRIBUTE(Allocation, start_time_ns_)` and
`ATTRIBUTE(OutOfMemory, start_time_ns_)` alternatives), clamped or not. -/
theorem isAllocOOMB_iff {b : BEvent} :
    isAllocOOMB b = true ↔
      b.payload = .allocation ∨ b.payload = .outOfMemory := by
  unfold isAllocOOMB
  rcases hp : b.payload <;> simp

theorem endTimeNS_allocOOM {base : List BEvent} {ev : EvState} {i : Nat}
    {b : BEvent} (fuel : Nat) (hb : base[i]? = some b)
    (hk : isAllocOOMB b = true) : endTimeNS base ev fuel i = b.start_time_ns := by
  obtain ⟨rec, hr⟩ := endTimeNS_eq_step base ev fuel i
  rw [hr]
  rcases isAllocOOMB_iff.mp hk with hp | hp <;>
    simp only [endTimeStep, hb, hp] <;>
    (unfold endClamp; cases hf : finishedOf ev i <;> simp)

/-! ### Frame lemmas for the `build_tree` step functions -/

theorem parentOf_congr {ev1 ev2 : EvState} (h : ev1.parents = ev2.parents)
    (j : Nat) : parentOf ev1 j = parentOf ev2 j := by
  unfold parentOf; rw [h]

theorem childrenOf_congr {ev1 ev2 : EvState} (h : ev1.childrenL = ev2.childrenL)
    (j : Nat) : childrenOf ev1 j = childrenOf ev2 j := by
  unfold childrenOf; rw [h]

theorem mem_updStack {e : Nat × Nat} {st : List (Nat × Nat)} {k v : Nat}
    (h : e ∈ updStack st k v) : e = (k, v) ∨ e ∈ st := by
  unfold updStack at h
  rcases List.mem_cons.mp h with h | h
  · exact Or.inl h
  · exact Or.inr (List.mem_of_mem_filter h)

theorem mem_delStack {e : Nat × Nat} {st : List (Nat × Nat)} {k : Nat}
    (h : e ∈ delStack st k) : e ∈ st :=
  List.mem_of_mem_filter h

theorem walkUp_parents : ∀ (f : Nat) (ev : EvState) (a c : Nat),
    (walkUp ev f a c).parents = ev.parents := by
  intro f
  induction f with
  | zero => intro ev a c; rfl
  | succ f ih =>
    intro ev a c
    unfold walkUp
    split
    · rfl
    · dsimp only
      split
      · rw [ih]; rfl
      · rfl

theorem walkUp_childrenL : ∀ (f : Nat) (ev : EvState) (a c : Nat),
    (walkUp ev f a c).childrenL = ev.childrenL := by
  intro f
  induction f with
  | zero => intro ev a c; rfl
  | succ f ih =>
    intro ev a c
    unfold walkUp
    split
    · rfl
    · dsimp only
      split
      · rw [ih]; rfl
      · rfl

theorem walkUp_finishedL_length : ∀ (f : Nat) (ev : EvState) (a c : Nat),
    (walkUp ev f a c).finishedL.length = ev.finishedL.length := by
  intro f
  induction f with
  | zero => intro ev a c; rfl
  | succ f ih =>
    intro ev a c
    unfold walkUp
    split
    · rfl
    · dsimp only
      split
      · rw [ih]; simp [mark_finished]
      · simp [mark_finished]

theorem walkUp_finished_mono : ∀ (f : Nat) (ev : EvState) (a c j : Nat),
    finishedOf ev j = true → finishedOf (walkUp ev f a c) j = true := by
  intro f
  induction f with
  | zero => intro ev a c j h; exact h
  | succ f ih =>
    intro ev a c j h
    unfold walkUp
    split
    · exact h
    · dsimp only
      split
      · exact ih _ _ _ _ (finishedOf_mark_finished_mono h)
      · exact finishedOf_mark_finished_mono h

theorem walkUp_lenOk {n : Nat} : ∀ (f : Nat) (ev : EvState) (a c : Nat),
    lenOk n ev → lenOk n (walkUp ev f a c) := by
  intro f ev a c h
  refine ⟨?_, ?_, ?_⟩
  · rw [walkUp_parents]; exact h.1
  · rw [walkUp_childrenL]; exact h.2.1
  · rw [walkUp_finishedL_length]; exact h.2.2

theorem finishedOf_mark_finished_new {ev : EvState} {i j : Nat}
    (h : finishedOf (mark_finished ev i) j = true) :
    finishedOf ev j = true ∨ j = i := by
  by_cases hij : i = j
  · exact Or.inr hij.symm
  · rw [finishedOf_mark_finished_ne ev hij] at h
    exact Or.inl h

theorem pop_event_parents (base : List BEvent) (s : BTState) (i : Nat) :
    (pop_event base s i).ev.parents = s.ev.parents := by
  unfold pop_event
  split
  · rfl
  · split
    · rfl
    · split
      · rfl
      · show (mark_finished (walkUp s.ev base.length _ i) i).parents = s.ev.parents
        rw [show (mark_finished (walkUp s.ev base.length _ i) i).parents
            = (walkUp s.ev base.length _ i).parents from rfl]
        exact walkUp_parents _ _ _ _

theorem pop_event_childrenL (base : List BEvent) (s : BTState) (i : Nat) :
    (pop_event base s i).ev.childrenL = s.ev.childrenL := by
  unfold pop_event
  split
  · rfl
  · split
    · rfl
    · split
      · rfl
      · show (mark_finished (walkUp s.ev base.length _ i) i).childrenL
            = s.ev.childrenL
        rw [show (mark_finished (walkUp s.ev base.length _ i) i).childrenL
            = (walkUp s.ev base.length _ i).childrenL from rfl]
        exact walkUp_childrenL _ _ _ _

theorem pop_event_endEvents (base : List BEvent) (s : BTState) (i : Nat) :
    (pop_event base s i).endEvents = s.endEvents := by
  unfold pop_event
  split
  · rfl
  · split
    · rfl
    · split
      · rfl
      · rfl

theorem pop_event_finished_mono (base : List BEvent) (s : BTState) (i j : Nat)
    (h : finishedOf s.ev j = true) :
    finishedOf (pop_event base s i).ev j = true := by
  unfold pop_event
  split
  · exact h
  · split
    · exact h
    · split
      · exact h
      · exact finishedOf_mark_finished_mono (walkUp_finished_mono _ _ _ _ _ h)

theorem pop_event_stacks (base : List BEvent) (s : BTState) (i : Nat) :
    ∀ e ∈ (pop_event base s i).stacks_,
      e ∈ s.stacks_ ∨ (finishedOf s.ev i = false ∧
        ∃ p, parentOf s.ev i = some p ∧ e.2 = p) := by
  unfold pop_event
  split
  · exact fun e he => Or.inl he
  · rename_i hnf
    split
    · exact fun e he => Or.inl he
    · split
      · exact fun e he => Or.inl he
      · intro e he
        dsimp only at he
        revert he
        split
        · intro he
          rcases mem_updStack he with h | h
          · refine Or.inr ⟨Bool.not_eq_true _ ▸ eq_false_of_ne_true hnf, _, ?_,
              by rw [h]⟩
            rename_i hp
            rw [← hp]
            refine (parentOf_congr ?_ i).symm
            rw [show (mark_finished (walkUp s.ev base.length _ i) i).parents
                = (walkUp s.ev base.length _ i).parents from rfl]
            exact walkUp_parents _ _ _ _
          · exact Or.inl (mem_delStack h)
        · intro he
          exact Or.inl (mem_delStack he)

theorem pop_event_lenOk {n : Nat} (base : List BEvent) (s : BTState) (i : Nat)
    (h : lenOk n s.ev) : lenOk n (pop_event base s i).ev := by
  unfold pop_event
  split
  · exact h
  · split
    · exact h
    · split
      · exact h
      · exact lenOk_mark_finished (walkUp_lenOk _ _ _ _ h) i

theorem pushParentIdx_mem {s : BTState} {b : BEvent} {w : Nat}
    (h : pushParentIdx s b = some w) : ∃ t, (t, w) ∈ s.stacks_ := by
  unfold pushParentIdx at h
  revert h
  split
  · intro h
    cases h
    rename_i hl
    exact ⟨_, alookup_mem hl⟩
  · split
    · intro h; cases h
    · intro h
      exact ⟨_, alookup_mem h⟩

theorem pushFinal_ev_parents (base : List BEvent) (s : BTState) (i : Nat)
    (b : BEvent) (ev1 : EvState) :
    (pushFinal base s i b ev1).ev.parents = ev1.parents := by
  unfold pushFinal
  dsimp only
  split
  · rfl
  · split
    · rfl
    · rfl

theorem pushFinal_ev_childrenL (base : List BEvent) (s : BTState) (i : Nat)
    (b : BEvent) (ev1 : EvState) :
    (pushFinal base s i b ev1).ev.childrenL = ev1.childrenL := by
  unfold pushFinal
  dsimp only
  split
  · rfl
  · split
    · rfl
    · rfl

theorem pushFinal_stacks (base : List BEvent) (s : BTState) (i : Nat)
    (b : BEvent) (ev1 : EvState) :
    ∀ e ∈ (pushFinal base s i b ev1).stacks_, e ∈ s.stacks_ ∨ e.2 = i := by
  unfold pushFinal
  dsimp only
  split
  · intro e he
    rcases mem_updStack he with h | h
    · exact Or.inr (by rw [h])
    · exact Or.inl h
  · split
    · intro e he
      rcases mem_updStack he with h | h
      · exact Or.inr (by rw [h])
      · exact Or.inl h
    · exact fun e he => Or.inl he

theorem pushFinal_finished (base : List BEvent) (s : BTState) (i : Nat)
    (b : BEvent) (ev1 : EvState) (j : Nat) :
    finishedOf (pushFinal base s i b ev1).ev j = finishedOf ev1 j ∨
      (j = i ∧ finishedOf (pushFinal base s i b ev1).ev j = true) := by
  unfold pushFinal
  dsimp only
  split
  · exact Or.inl rfl
  · split
    · exact Or.inl rfl
    · by_cases hij : i = j
      · subst hij
        by_cases hlen : i < ev1.finishedL.length
        · exact Or.inr ⟨rfl, finishedOf_mark_finished_self ev1 hlen⟩
        · left
          unfold finishedOf mark_finished
          rw [List.set_eq_of_length_le (by omega)]
      · exact Or.inl (finishedOf_mark_finished_ne ev1 hij)

theorem pushFinal_lenOk {n : Nat} (base : List BEvent) (s : BTState) (i : Nat)
    (b : BEvent) (ev1 : EvState) (h : lenOk n ev1) :
    lenOk n (pushFinal base s i b ev1).ev := by
  unfold pushFinal
  dsimp only
  split
  · exact h
  · split
    · exact h
    · exact lenOk_mark_finished h i

theorem parentOf_setParent_oob {i : Nat} (ev : EvState) (v : Option Nat)
    (h : ev.parents.length ≤ i) (j : Nat) :
    parentOf (setParent ev i v) j = parentOf ev j := by
  unfold parentOf setParent
  rw [List.set_eq_of_length_le h]

theorem childrenOf_addChild_oob {p : Nat} (ev : EvState) (c : Nat)
    (h : ev.childrenL.length ≤ p) (j : Nat) :
    childrenOf (addChild ev p c) j = childrenOf ev j := by
  unfold childrenOf addChild
  rw [List.set_eq_of_length_le h]

theorem push_event_parentOf (base : List BEvent) (s : BTState) (i j : Nat) :
    parentOf (push_event base s i).ev j = parentOf s.ev j ∨
      (j = i ∧ ∃ w, (∃ t, (t, w) ∈ s.stacks_) ∧
        parentOf (push_event base s i).ev j = some w) := by
  unfold push_event
  split
  · exact Or.inl rfl
  · split
    · exact Or.inl rfl
    · unfold pushCore
      rcases hpi : pushParentIdx s _ with _ | w <;> dsimp only
      · left
        rw [parentOf_congr (pushFinal_ev_parents _ _ _ _ _) j]
      · rw [parentOf_congr (pushFinal_ev_parents _ _ _ _ _) j,
          parentOf_addChild]
        by_cases hij : j = i
        · subst hij
          by_cases hlen : j < s.ev.parents.length
          · right
            exact ⟨rfl, w, pushParentIdx_mem hpi,
              parentOf_setParent_self s.ev (some w) hlen⟩
          · left
            exact parentOf_setParent_oob s.ev (some w) (by omega) j
        · left
          exact parentOf_setParent_ne s.ev (some w) (fun hi => hij hi.symm)

theorem push_event_childrenOf (base : List BEvent) (s : BTState) (i : Nat) :
    ∀ p j, j ∈ childrenOf (push_event base s i).ev p →
      j ∈ childrenOf s.ev p ∨ (j = i ∧ ∃ t, (t, p) ∈ s.stacks_) := by
  unfold push_event
  split
  · exact fun p j h => Or.inl h
  · split
    · exact fun p j h => Or.inl h
    · intro p j h
      revert h
      unfold pushCore
      rcases hpi : pushParentIdx s _ with _ | w <;> dsimp only <;>
        intro h <;>
        rw [childrenOf_congr (pushFinal_ev_childrenL _ _ _ _ _) p] at h
      · exact Or.inl h
      · by_cases hpw : w = p
        · subst hpw
          by_cases hlen : w < s.ev.childrenL.length
          · rw [childrenOf_addChild_self _ _
              (by simpa [setParent] using hlen)] at h
            rcases List.mem_append.mp h with h | h
            · exact Or.inl h
            · exact Or.inr ⟨by simpa using h, pushParentIdx_mem hpi⟩
          · rw [childrenOf_addChild_oob _ _ (by simp [setParent]; omega) w] at h
            exact Or.inl h
        · rw [childrenOf_addChild_ne _ _ hpw] at h
          exact Or.inl h

theorem push_event_stacks (base : List BEvent) (s : BTState) (i : Nat) :
    ∀ e ∈ (push_event base s i).stacks_, e ∈ s.stacks_ ∨ e.2 = i := by
  unfold push_event
  split
  · exact fun e he => Or.inl he
  · split
    · exact fun e he => Or.inl he
    · unfold pushCore
      exact pushFinal_stacks base s i _ _

theorem pushCore_ev1_finished (s : BTState) (i : Nat) (w : Option Nat)
    (j : Nat) :
    finishedOf (match w with
      | some p => addChild (setParent s.ev i (some p)) p i
      | none => s.ev) j = finishedOf s.ev j := by
  rcases w with _ | p <;> rfl

theorem push_event_finished_mono (base : List BEvent) (s : BTState)
    (i j : Nat) (h : finishedOf s.ev j = true) :
    finishedOf (push_event base s i).ev j = true := by
  unfold push_event
  split
  · exact h
  · split
    · exact h
    · unfold pushCore
      rcases pushFinal_finished base s i _ _ j with hf | hf
      · rw [hf, pushCore_ev1_finished]
        exact h
      · exact hf.2

theorem push_event_finished_new (base : List BEvent) (s : BTState)
    (i j : Nat) (h : finishedOf (push_event base s i).ev j = true) :
    finishedOf s.ev j = true ∨ j = i := by
  revert h
  unfold push_event
  split
  · exact fun h => Or.inl h
  · split
    · exact fun h => Or.inl h
    · unfold pushCore
      intro h
      rcases pushFinal_finished base s i _ _ j with hf | hf
      · rw [hf, pushCore_ev1_finished] at h
        exact Or.inl h
      · exact Or.inr hf.1

theorem push_event_lenOk {n : Nat} (base : List BEvent) (s : BTState) (i : Nat)
    (h : lenOk n s.ev) : lenOk n (push_event base s i).ev := by
  unfold push_event
  split
  · exact h
  · split
    · exact h
    · unfold pushCore
      apply pushFinal_lenOk
      rcases hpi : pushParentIdx s _ with _ | w <;> dsimp only
      · exact h
      · exact lenOk_addChild (lenOk_setParent h i (some w)) w i

theorem push_event_skip {base : List BEvent} {s : BTState} {i : Nat}
    {b : BEvent} (hb : base[i]? = some b) (hkin : isKinetoB b = true)
    (hfin : finishedOf s.ev i = true) : push_event base s i = s := by
  unfold push_event
  rw [hb]
  simp [hkin, hfin]

/-! ### Preservation through the replay loops -/

theorem popLoop_pres (base : List BEvent) (P : BTState → Prop)
    (hpop : ∀ s j, P s → P (pop_event base s j))
    (hque : ∀ s q, P s → P { s with endEvents := q }) :
    ∀ (f : Nat) (s : BTState) (t : Int), P s → P (popLoop base s t f) := by
  intro f
  induction f with
  | zero => intro s t h; exact h
  | succ f ih =>
    intro s t h
    unfold popLoop
    split
    · exact h
    · split
      · exact ih _ _ (hque _ _ (hpop _ _ h))
      · exact h

theorem drainLoop_pres (base : List BEvent) (P : BTState → Prop)
    (hpop : ∀ s j, P s → P (pop_event base s j))
    (hque : ∀ s q, P s → P { s with endEvents := q }) :
    ∀ (f : Nat) (s : BTState), P s → P (drainLoop base s f) := by
  intro f
  induction f with
  | zero => intro s h; exact h
  | succ f ih =>
    intro s h
    unfold drainLoop
    split
    · exact h
    · exact ih _ (hque _ _ (hpop _ _ h))

/-- Position-indexed induction along the stack replay loop: a property
`Q s k` ("`s` is the state with the first `k` sorted events consumed")
preserved by `pop_event`, by queue rewrites, and by `push_event` at the
next position holds of the final state of `build_tree`'s loop. -/
theorem buildTreeGo_ind (base : List BEvent) (Q : BTState → Nat → Prop)
    (hpop : ∀ s j k, Q s k → Q (pop_event base s j) k)
    (hque : ∀ s q k, Q s k → Q { s with endEvents := q } k)
    (hpush : ∀ s k, k < base.length → Q s k → Q (push_event base s k) (k + 1)) :
    ∀ (m k : Nat) (s : BTState), k + m = base.length → Q s k →
      Q (buildTreeGo base s (idxFrom k m)) base.length := by
  intro m
  induction m with
  | zero =>
    intro k s hk h
    have hk' : k = base.length := by omega
    subst hk'
    show Q (drainLoop base s s.endEvents.length) base.length
    exact drainLoop_pres base (fun s => Q s base.length)
      (fun s j h => hpop s j _ h) (fun s q h => hque s q _ h) _ s h
  | succ m ih =>
    intro k s hk h
    show Q (buildTreeGo base
      (push_event base (popLoop base s (startAt base k) s.endEvents.length) k)
      (idxFrom (k + 1) m)) base.length
    have h1 : Q (popLoop base s (startAt base k) s.endEvents.length) k :=
      popLoop_pres base (fun s => Q s k) (fun s j h => hpop s j k h)
        (fun s q h => hque s q k h) _ _ _ h
    exact ih (k + 1) _ (by omega) (hpush _ k (by omega) h1)

/-! ### Lemmas about `setParents` (passes 1 and 2) -/

/-- Whether the event at index `j` is a Kineto activity. -/
def isKinetoIdx (base : List BEvent) (j : Nat) : Bool :=
  match base[j]? with
  | some b => isKinetoB b
  | none => false

theorem pass1_untouched (base : List BEvent) :
    ∀ (l : List Nat) (mp : List (Nat × Nat)) (ev : EvState) (j : Nat),
      j ∉ l → parentOf (setParentsPass1 base (mp, ev) l).2 j = parentOf ev j := by
  intro l
  induction l with
  | nil => intro mp ev j _; rfl
  | cons a rest ih =>
    intro mp ev j hj
    have ha : a ≠ j := fun h => hj (h ▸ List.mem_cons_self a rest)
    have hr : j ∉ rest := fun h => hj (List.mem_cons_of_mem a h)
    unfold setParentsPass1
    split
    · split
      · rw [ih _ _ _ hr, parentOf_setParent_ne _ _ ha]
      · exact ih _ _ _ hr
    · exact ih _ _ _ hr

theorem pass1_nonkineto (base : List BEvent) :
    ∀ (l : List Nat) (mp : List (Nat × Nat)) (ev : EvState) (j : Nat),
      isKinetoIdx base j = false →
      parentOf (setParentsPass1 base (mp, ev) l).2 j = parentOf ev j := by
  intro l
  induction l with
  | nil => intro mp ev j _; rfl
  | cons a rest ih =>
    intro mp ev j hj
    unfold setParentsPass1
    split
    · split
      · rename_i b hb pl d fid fty fst linked hpl
        by_cases haj : a = j
        · subst haj
          unfold isKinetoIdx at hj
          rw [hb] at hj
          unfold isKinetoB at hj
          simp [hpl] at hj
        · rw [ih _ _ _ hj, parentOf_setParent_ne _ _ haj]
      · exact ih _ _ _ hj
    · exact ih _ _ _ hj

theorem pass1_lenOk {n : Nat} (base : List BEvent) :
    ∀ (l : List Nat) (mp : List (Nat × Nat)) (ev : EvState), lenOk n ev →
      lenOk n (setParentsPass1 base (mp, ev) l).2 := by
  intro l
  induction l with
  | nil => intro mp ev h; exact h
  | cons a rest ih =>
    intro mp ev h
    unfold setParentsPass1
    split
    · split
      · exact ih _ _ (lenOk_setParent h _ _)
      · exact ih _ _ h
    · exact ih _ _ h

theorem pass1_childrenL (base : List BEvent) :
    ∀ (l : List Nat) (mp : List (Nat × Nat)) (ev : EvState),
      (setParentsPass1 base (mp, ev) l).2.childrenL = ev.childrenL := by
  intro l
  induction l with
  | nil => intro mp ev; rfl
  | cons a rest ih =>
    intro mp ev
    unfold setParentsPass1
    split
    · split
      · rw [ih]; rfl
      · exact ih _ _
    · exact ih _ _

theorem pass1_finishedL (base : List BEvent) :
    ∀ (l : List Nat) (mp : List (Nat × Nat)) (ev : EvState),
      (setParentsPass1 base (mp, ev) l).2.finishedL = ev.finishedL := by
  intro l
  induction l with
  | nil => intro mp ev; rfl
  | cons a rest ih =>
    intro mp ev
    unfold setParentsPass1
    split
    · split
      · rw [ih]; rfl
      · exact ih _ _
    · exact ih _ _

theorem pass1_kineto_parent (base : List BEvent) :
    ∀ (m k : Nat) (mp : List (Nat × Nat)) (ev : EvState) (j : Nat)
      (b : BEvent) (d : Int) (fid fty : Nat) (fst : Bool) (linked : Option Nat),
      j ∈ idxFrom k m → base[j]? = some b →
      b.payload = .kineto d fid fty fst linked → j < ev.parents.length →
      parentOf (setParentsPass1 base (mp, ev) (idxFrom k m)).2 j = linked := by
  intro m
  induction m with
  | zero =>
    intro k mp ev j b d fid fty fst linked hmem
    simp [idxFrom] at hmem
  | succ m ih =>
    intro k mp ev j b d fid fty fst linked hmem hb hpl hlen
    rcases List.mem_cons.mp hmem with hjk | hjr
    · subst hjk
      show parentOf (setParentsPass1 base (mp, ev) (j :: idxFrom (j + 1) m)).2 j
          = linked
      unfold setParentsPass1
      rw [hb]
      dsimp only
      rw [hpl]
      dsimp only
      rw [pass1_untouched base _ _ _ j
          (fun h => by have := (mem_idxFrom.mp h).1; omega)]
      exact parentOf_setParent_self ev linked hlen
    · have hkj : k ≠ j := by
        have := (mem_idxFrom.mp hjr).1; omega
      show parentOf (setParentsPass1 base (mp, ev) (k :: idxFrom (k + 1) m)).2 j
          = linked
      unfold setParentsPass1
      split
      · split
        · rw [ih (k + 1) _ _ j b d fid fty fst linked hjr hb hpl
            (by simpa [setParent] using hlen)]
        · exact ih (k + 1) _ _ j b d fid fty fst linked hjr hb hpl hlen
      · exact ih (k + 1) _ _ j b d fid fty fst linked hjr hb hpl hlen

theorem pass1_flowMap_mem (base : List BEvent) :
    ∀ (l : List Nat) (mp : List (Nat × Nat)) (ev : EvState)
      (e : Nat × Nat), e ∈ (setParentsPass1 base (mp, ev) l).1 →
      e ∈ mp ∨ ∃ b d linked, base[e.2]? = some b ∧
        b.payload = .kineto d e.1 kLinkAsyncCpuGpu true linked := by
  intro l
  induction l with
  | nil => intro mp ev e he; exact Or.inl he
  | cons a rest ih =>
    intro mp ev e he
    revert he
    unfold setParentsPass1
    split
    · split
      · rename_i b hb pl d fid fty fst linked hpl
        intro he
        rcases ih _ _ _ he with hm | hex
        · revert hm
          split
          · rename_i hcond
            intro hm
            rcases List.mem_append.mp hm with hm | hm
            · exact Or.inl hm
            · right
              have he2 : e = (fid, a) := by simpa using hm
              subst he2
              exact ⟨b, d, linked, hb, by rw [hpl, hcond.1, hcond.2.1]⟩
          · exact fun hm => Or.inl hm
        · exact Or.inr hex
      · exact fun he => ih _ _ _ he
    · exact fun he => ih _ _ _ he

theorem pass2Step_parentOf_ne (base : List BEvent) (mp : List (Nat × Nat))
    (ev : EvState) {a j : Nat} (h : a ≠ j) :
    parentOf (setParentsPass2Step base mp ev a) j = parentOf ev j := by
  unfold setParentsPass2Step
  split
  · split
    · dsimp only
      rename_i d fid fty fst linked hpl
      rcases halk : alookup fid mp with _ | p <;> dsimp only
      · split
        · rw [parentOf_mark_finished, parentOf_addChild]
        · rfl
      · by_cases hc : fty = kLinkAsyncCpuGpu ∧ fst = false
        · rw [if_pos hc]
          split
          · rw [parentOf_mark_finished, parentOf_addChild,
              parentOf_setParent_ne _ _ h]
          · exact parentOf_setParent_ne _ _ h
        · rw [if_neg hc]
          split
          · rw [parentOf_mark_finished, parentOf_addChild]
          · rfl
    all_goals rfl
  · rfl

theorem pass2Step_finishedOf_ne (base : List BEvent) (mp : List (Nat × Nat))
    (ev : EvState) {a j : Nat} (h : a ≠ j) :
    finishedOf (setParentsPass2Step base mp ev a) j = finishedOf ev j := by
  unfold setParentsPass2Step
  split
  · split
    · dsimp only
      rename_i d fid fty fst linked hpl
      rcases halk : alookup fid mp with _ | p <;> dsimp only
      · split
        · rw [finishedOf_mark_finished_ne _ h, finishedOf_addChild]
        · rfl
      · by_cases hc : fty = kLinkAsyncCpuGpu ∧ fst = false
        · rw [if_pos hc]
          split
          · rw [finishedOf_mark_finished_ne _ h, finishedOf_addChild,
              finishedOf_setParent]
          · exact finishedOf_setParent _ _ _ _
        · rw [if_neg hc]
          split
          · rw [finishedOf_mark_finished_ne _ h, finishedOf_addChild]
          · rfl
    all_goals rfl
  · rfl

theorem mem_childrenOf_addChild {ev : EvState} {x q : Nat}
    (hx : x ∈ childrenOf ev q) (p c : Nat) :
    x ∈ childrenOf (addChild ev p c) q := by
  by_cases hpq : p = q
  · subst hpq
    by_cases hlen : p < ev.childrenL.length
    · rw [childrenOf_addChild_self ev c hlen]
      exact List.mem_append_left _ hx
    · rw [childrenOf_addChild_oob ev c (by omega) p]
      exact hx
  · rw [childrenOf_addChild_ne ev c hpq]
    exact hx

theorem pass2Step_children_mono (base : List BEvent) (mp : List (Nat × Nat))
    (ev : EvState) (a : Nat) {x q : Nat} (hx : x ∈ childrenOf ev q) :
    x ∈ childrenOf (setParentsPass2Step base mp ev a) q := by
  unfold setParentsPass2Step
  split
  · split
    · dsimp only
      rename_i d fid fty fst linked hpl
      rcases halk : alookup fid mp with _ | p <;> dsimp only
      · split
        · rw [childrenOf_mark_finished]
          exact mem_childrenOf_addChild hx _ _
        · exact hx
      · by_cases hc : fty = kLinkAsyncCpuGpu ∧ fst = false
        · rw [if_pos hc]
          split
          · rw [childrenOf_mark_finished]
            exact mem_childrenOf_addChild (by
              rw [childrenOf_setParent]; exact hx) _ _
          · rw [childrenOf_setParent]; exact hx
        · rw [if_neg hc]
          split
          · rw [childrenOf_mark_finished]
            exact mem_childrenOf_addChild hx _ _
          · exact hx
    all_goals exact hx
  · exact hx

theorem pass2Step_finished_mono (base : List BEvent) (mp : List (Nat × Nat))
    (ev : EvState) (a : Nat) {j : Nat} (hj : finishedOf ev j = true) :
    finishedOf (setParentsPass2Step base mp ev a) j = true := by
  unfold setParentsPass2Step
  split
  · split
    · dsimp only
      rename_i d fid fty fst linked hpl
      rcases halk : alookup fid mp with _ | p <;> dsimp only
      · split
        · exact finishedOf_mark_finished_mono (by
            rw [finishedOf_addChild]; exact hj)
        · exact hj
      · by_cases hc : fty = kLinkAsyncCpuGpu ∧ fst = false
        · rw [if_pos hc]
          split
          · exact finishedOf_mark_finished_mono (by
              rw [finishedOf_addChild, finishedOf_setParent]; exact hj)
          · rw [finishedOf_setParent]; exact hj
        · rw [if_neg hc]
          split
          · exact finishedOf_mark_finished_mono (by
              rw [finishedOf_addChild]; exact hj)
          · exact hj
    all_goals exact hj
  · exact hj

theorem pass2Step_lenOk {n : Nat} (base : List BEvent) (mp : List (Nat × Nat))
    (ev : EvState) (a : Nat) (h : lenOk n ev) :
    lenOk n (setParentsPass2Step base mp ev a) := by
  unfold setParentsPass2Step
  split
  · split
    · dsimp only
      rename_i d fid fty fst linked hpl
      rcases halk : alookup fid mp with _ | p <;> dsimp only
      · split
        · exact lenOk_mark_finished (lenOk_addChild h _ _) _
        · exact h
      · by_cases hc : fty = kLinkAsyncCpuGpu ∧ fst = false
        · rw [if_pos hc]
          split
          · exact lenOk_mark_finished
              (lenOk_addChild (lenOk_setParent h _ _) _ _) _
          · exact lenOk_setParent h _ _
        · rw [if_neg hc]
          split
          · exact lenOk_mark_finished (lenOk_addChild h _ _) _
          · exact h
    all_goals exact h
  · exact h

theorem pass2_fold_parentOf_ne (base : List BEvent) (mp : List (Nat × Nat)) :
    ∀ (l : List Nat) (ev : EvState) (j : Nat), j ∉ l →
      parentOf (l.foldl (setParentsPass2Step base mp) ev) j = parentOf ev j := by
  intro l
  induction l with
  | nil => intro ev j _; rfl
  | cons a rest ih =>
    intro ev j hj
    show parentOf (rest.foldl (setParentsPass2Step base mp)
      (setParentsPass2Step base mp ev a)) j = parentOf ev j
    rw [ih _ _ (fun hr => hj (List.mem_cons_of_mem a hr)),
      pass2Step_parentOf_ne base mp ev
        (fun hc => hj (by rw [← hc]; exact List.mem_cons_self a rest))]

theorem pass2_fold_finishedOf_ne (base : List BEvent) (mp : List (Nat × Nat)) :
    ∀ (l : List Nat) (ev : EvState) (j : Nat), j ∉ l →
      finishedOf (l.foldl (setParentsPass2Step base mp) ev) j
        = finishedOf ev j := by
  intro l
  induction l with
  | nil => intro ev j _; rfl
  | cons a rest ih =>
    intro ev j hj
    show finishedOf (rest.foldl (setParentsPass2Step base mp)
      (setParentsPass2Step base mp ev a)) j = finishedOf ev j
    rw [ih _ _ (fun hr => hj (List.mem_cons_of_mem a hr)),
      pass2Step_finishedOf_ne base mp ev
        (fun hc => hj (by rw [← hc]; exact List.mem_cons_self a rest))]

theorem pass2_fold_children_mono (base : List BEvent) (mp : List (Nat × Nat)) :
    ∀ (l : List Nat) (ev : EvState) {x q : Nat}, x ∈ childrenOf ev q →
      x ∈ childrenOf (l.foldl (setParentsPass2Step base mp) ev) q := by
  intro l
  induction l with
  | nil => intro ev x q hx; exact hx
  | cons a rest ih =>
    intro ev x q hx
    exact ih _ (pass2Step_children_mono base mp ev a hx)

theorem pass2_fold_finished_mono (base : List BEvent) (mp : List (Nat × Nat)) :
    ∀ (l : List Nat) (ev : EvState) {j : Nat}, finishedOf ev j = true →
      finishedOf (l.foldl (setParentsPass2Step base mp) ev) j = true := by
  intro l
  induction l with
  | nil => intro ev j hj; exact hj
  | cons a rest ih =>
    intro ev j hj
    exact ih _ (pass2Step_finished_mono base mp ev a hj)

theorem pass2_fold_lenOk {n : Nat} (base : List BEvent) (mp : List (Nat × Nat)) :
    ∀ (l : List Nat) (ev : EvState), lenOk n ev →
      lenOk n (l.foldl (setParentsPass2Step base mp) ev) := by
  intro l
  induction l with
  | nil => intro ev h; exact h
  | cons a rest ih =>
    intro ev h
    exact ih _ (pass2Step_lenOk base mp ev a h)

theorem pass2Step_nonkineto {base : List BEvent} {mp : List (Nat × Nat)}
    {ev : EvState} {a : Nat} (h : isKinetoIdx base a = false) :
    setParentsPass2Step base mp ev a = ev := by
  unfold setParentsPass2Step
  split
  · split
    · rename_i b hb pl d fid fty fst linked hpl
      exfalso
      unfold isKinetoIdx at h
      rw [hb] at h
      unfold isKinetoB at h
      simp [hpl] at h
    all_goals rfl
  · rfl

theorem pass2Step_parentOf_self_cases (base : List BEvent)
    (mp : List (Nat × Nat)) (ev : EvState) (a : Nat)
    (ha : a < ev.parents.length) :
    parentOf (setParentsPass2Step base mp ev a) a = parentOf ev a ∨
    ∃ p, (∃ f, (f, p) ∈ mp) ∧
      parentOf (setParentsPass2Step base mp ev a) a = some p := by
  unfold setParentsPass2Step
  split
  · split
    · dsimp only
      rename_i d fid fty fst linked hpl
      rcases halk : alookup fid mp with _ | p <;> dsimp only
      · split
        · left; rw [parentOf_mark_finished, parentOf_addChild]
        · left; rfl
      · by_cases hc : fty = kLinkAsyncCpuGpu ∧ fst = false
        · rw [if_pos hc]
          rw [parentOf_setParent_self ev (some p) ha]
          dsimp only
          right
          refine ⟨p, ⟨fid, alookup_mem halk⟩, ?_⟩
          rw [parentOf_mark_finished, parentOf_addChild]
          exact parentOf_setParent_self ev (some p) ha
        · rw [if_neg hc]
          split
          · left; rw [parentOf_mark_finished, parentOf_addChild]
          · left; rfl
    all_goals left; rfl
  · left; rfl

theorem pass2Step_kineto_post {base : List BEvent} {mp : List (Nat × Nat)}
    {ev : EvState} {a n : Nat} {b : BEvent} {d : Int} {fid fty : Nat}
    {fst : Bool} {linked : Option Nat}
    (hb : base[a]? = some b) (hpl : b.payload = .kineto d fid fty fst linked)
    (hn : lenOk n ev) (ha : a < n)
    (hrange : ∀ q, parentOf ev a = some q → q < n)
    (hmp : ∀ e ∈ mp, e.2 < n) :
    ∀ q, parentOf (setParentsPass2Step base mp ev a) a = some q →
      finishedOf (setParentsPass2Step base mp ev a) a = true ∧
      a ∈ childrenOf (setParentsPass2Step base mp ev a) q := by
  unfold setParentsPass2Step
  rw [hb]
  dsimp only
  rw [hpl]
  dsimp only
  rcases halk : alookup fid mp with _ | p <;> dsimp only
  · rcases hpar : parentOf ev a with _ | p0 <;> dsimp only
    · intro q hq
      rw [hpar] at hq
      exact Option.noConfusion hq
    · intro q hq
      rw [parentOf_mark_finished, parentOf_addChild, hpar] at hq
      cases hq
      have hp0 : p0 < n := hrange p0 hpar
      refine ⟨finishedOf_mark_finished_self _
        (by simpa [addChild, hn.2.2] using ha), ?_⟩
      rw [childrenOf_mark_finished]
      rw [childrenOf_addChild_self ev a (by rw [hn.2.1]; exact hp0)]
      exact List.mem_append_right _ (by simp)
  · by_cases hc : fty = kLinkAsyncCpuGpu ∧ fst = false
    · rw [if_pos hc]
      rw [parentOf_setParent_self ev (some p) (by rw [hn.1]; exact ha)]
      dsimp only
      intro q hq
      rw [parentOf_mark_finished, parentOf_addChild,
        parentOf_setParent_self ev (some p) (by rw [hn.1]; exact ha)] at hq
      cases hq
      have hp : p < n := hmp _ (alookup_mem halk)
      refine ⟨finishedOf_mark_finished_self _
        (by simpa [addChild, setParent, hn.2.2] using ha), ?_⟩
      rw [childrenOf_mark_finished]
      rw [childrenOf_addChild_self _ a (by simpa [setParent, hn.2.1] using hp)]
      exact List.mem_append_right _ (by simp)
    · rw [if_neg hc]
      rcases hpar : parentOf ev a with _ | p0 <;> dsimp only
      · intro q hq
        rw [hpar] at hq
        exact Option.noConfusion hq
      · intro q hq
        rw [parentOf_mark_finished, parentOf_addChild, hpar] at hq
        cases hq
        have hp0 : p0 < n := hrange p0 hpar
        refine ⟨finishedOf_mark_finished_self _
          (by simpa [addChild, hn.2.2] using ha), ?_⟩
        rw [childrenOf_mark_finished]
        rw [childrenOf_addChild_self ev a (by rw [hn.2.1]; exact hp0)]
        exact List.mem_append_right _ (by simp)

theorem lt_of_getElem?_some {α : Type} {l : List α} {i : Nat} {a : α}
    (h : l[i]? = some a) : i < l.length := by
  by_contra hc
  rw [List.getElem?_eq_none (by omega)] at h
  cases h

theorem isKinetoIdx_elim {base : List BEvent} {a : Nat}
    (h : isKinetoIdx base a = true) :
    ∃ b d fid fty fst linked, base[a]? = some b ∧
      b.payload = Payload.kineto d fid fty fst linked := by
  unfold isKinetoIdx at h
  rcases hb : base[a]? with _ | b <;> rw [hb] at h
  · cases h
  · rcases hpl : b.payload with _ | _ | _ | _ | ⟨d, fid, fty, fst, linked⟩ | _ | _ <;>
      simp [isKinetoB, hpl] at h
    exact ⟨b, d, fid, fty, fst, linked, rfl, hpl⟩

theorem pass2Step_parent_range {base : List BEvent} {mp : List (Nat × Nat)}
    {ev : EvState} {a n : Nat}
    (hmp : ∀ e ∈ mp, e.2 < n)
    (ha : a < ev.parents.length)
    (hold : ∀ j q, parentOf ev j = some q → q < n) :
    ∀ j q, parentOf (setParentsPass2Step base mp ev a) j = some q → q < n := by
  intro j q hq
  by_cases haj : a = j
  · subst haj
    rcases pass2Step_parentOf_self_cases base mp ev a ha with hsame | ⟨p, hf, hp⟩
    · rw [hsame] at hq
      exact hold _ _ hq
    · rw [hp] at hq
      cases hq
      obtain ⟨f, hfm⟩ := hf
      exact hmp _ hfm
  · rw [pass2Step_parentOf_ne base mp ev haj] at hq
    exact hold _ _ hq

/-- Every event the second pass of `setParents` gives a parent to is, in
the resulting state, marked finished and present in that parent's child
list (collection.cpp:766-771). -/
theorem pass2_fold_invariant (base : List BEvent) (mp : List (Nat × Nat))
    {n : Nat} (hmp : ∀ e ∈ mp, e.2 < n) :
    ∀ (l : List Nat) (ev : EvState),
      lenOk n ev → (∀ a ∈ l, a < n) →
      (∀ j q, parentOf ev j = some q → q < n) →
      (∀ j q, parentOf ev j = some q →
        (finishedOf ev j = true ∧ j ∈ childrenOf ev q) ∨
          (j ∈ l ∧ isKinetoIdx base j = true)) →
      ∀ j q, parentOf (l.foldl (setParentsPass2Step base mp) ev) j = some q →
        finishedOf (l.foldl (setParentsPass2Step base mp) ev) j = true ∧
        j ∈ childrenOf (l.foldl (setParentsPass2Step base mp) ev) q := by
  intro l
  induction l with
  | nil =>
    intro ev hlen hbound hrange hmain j q hq
    rcases hmain j q hq with h | h
    · exact h
    · simp at h
  | cons a rest ih =>
    intro ev hlen hbound hrange hmain j q hq
    have haN : a < n := hbound a (List.mem_cons_self a rest)
    have haP : a < ev.parents.length := by rw [hlen.1]; exact haN
    refine ih (setParentsPass2Step base mp ev a)
      (pass2Step_lenOk base mp ev a hlen)
      (fun x hx => hbound x (List.mem_cons_of_mem a hx))
      (pass2Step_parent_range hmp haP hrange) ?_ j q hq
    intro j' q' hq'
    by_cases haj : a = j'
    · subst haj
      rcases hkin : isKinetoIdx base a with hkf | hkt
      · rw [pass2Step_nonkineto hkin] at hq' ⊢
        rcases hmain a q' hq' with h | h
        · exact Or.inl h
        · rw [hkin] at h
          exact absurd h.2 (by simp)
      · obtain ⟨b, d, fid, fty, fst, linked, hb, hpl⟩ := isKinetoIdx_elim hkin
        exact Or.inl (pass2Step_kineto_post hb hpl hlen haN
          (fun q hq => hrange a q hq) hmp q' hq')
    · rw [pass2Step_parentOf_ne base mp ev haj] at hq'
      rcases hmain j' q' hq' with h | h
      · exact Or.inl ⟨pass2Step_finished_mono base mp ev a h.1,
          pass2Step_children_mono base mp ev a h.2⟩
      · rcases List.mem_cons.mp h.1 with hc | hc
        · exact absurd hc.symm haj
        · exact Or.inr ⟨hc, h.2⟩

/-- `setParentsMain` unfolded into pass 1 followed by the pass-2 fold over
the flow map. -/
theorem setParentsMain_eq (base : List BEvent) :
    setParentsMain base =
      (idxFrom 0 base.length).foldl
        (setParentsPass2Step base (flowMap base))
        (setParentsPass1 base ([], initEv base.length)
          (idxFrom 0 base.length)).2 := rfl

/-- After pass 1 over the fresh state, an event's parent can only be
non-null if the event is a Kineto activity (whose parent then is its
linked activity). -/
theorem pass1_parent_kineto (base : List BEvent) {j : Nat} {q : Nat}
    (hq : parentOf (setParentsPass1 base ([], initEv base.length)
      (idxFrom 0 base.length)).2 j = some q) :
    isKinetoIdx base j = true := by
  rcases hk : isKinetoIdx base j with h | h
  · rw [pass1_nonkineto base _ _ _ _ hk, parentOf_initEv] at hq
    cases hq
  · rfl

/-- Every event that receives a parent during `setParents` (passes 1-2)
is marked finished and attached as a child of that parent in the
resulting state. -/
theorem setParents_attach (base : List BEvent)
    (hlinked : ∀ (j : Nat) (b : BEvent) (d : Int) (fid fty : Nat)
      (fst : Bool) (lk : Option Nat) (q : Nat), base[j]? = some b →
      b.payload = Payload.kineto d fid fty fst lk → lk = some q →
      q < base.length) :
    ∀ i p, parentOf (setParentsMain base) i = some p →
      finishedOf (setParentsMain base) i = true ∧
      i ∈ childrenOf (setParentsMain base) p := by
  intro i p hp
  rw [setParentsMain_eq] at hp ⊢
  have hlen1 : lenOk base.length
      (setParentsPass1 base ([], initEv base.length)
        (idxFrom 0 base.length)).2 :=
    pass1_lenOk base _ _ _ (lenOk_initEv _)
  have hmp : ∀ e ∈ flowMap base, e.2 < base.length := by
    intro e he
    rcases pass1_flowMap_mem base _ _ _ e he with h | ⟨b, d, linked, hb, _⟩
    · simp at h
    · exact lt_of_getElem?_some hb
  have hrange : ∀ j q,
      parentOf (setParentsPass1 base ([], initEv base.length)
        (idxFrom 0 base.length)).2 j = some q → q < base.length := by
    intro j q hq
    have hkin := pass1_parent_kineto base hq
    obtain ⟨b, d, fid, fty, fst, lk, hb, hpl⟩ := isKinetoIdx_elim hkin
    have hjlt : j < base.length := lt_of_getElem?_some hb
    have heq := pass1_kineto_parent base base.length 0 []
      (initEv base.length) j b d fid fty fst lk
      (mem_idxFrom.mpr ⟨Nat.zero_le j, by omega⟩) hb hpl
      (by simp [initEv]; omega)
    rw [heq] at hq
    exact hlinked j b d fid fty fst lk q hb hpl hq
  have hmain : ∀ j q,
      parentOf (setParentsPass1 base ([], initEv base.length)
        (idxFrom 0 base.length)).2 j = some q →
      (finishedOf (setParentsPass1 base ([], initEv base.length)
          (idxFrom 0 base.length)).2 j = true ∧
        j ∈ childrenOf (setParentsPass1 base ([], initEv base.length)
          (idxFrom 0 base.length)).2 q) ∨
        (j ∈ idxFrom 0 base.length ∧ isKinetoIdx base j = true) := by
    intro j q hq
    right
    refine ⟨?_, pass1_parent_kineto base hq⟩
    have hjlen := parentOf_lt_of_some hq
    rw [hlen1.1] at hjlen
    exact mem_idxFrom.mpr ⟨Nat.zero_le j, by omega⟩
  exact pass2_fold_invariant base (flowMap base) hmp (idxFrom 0 base.length) _
    hlen1 (fun a ha => by have := (mem_idxFrom.mp ha).2; omega)
    hrange hmain i p hp

/-- `build_tree` never rewrites the parent of a Kineto event that entered
it already finished: `push_event` skips it, it never joins the open-frame
map, and `pop_event` never touches parent links. -/
theorem build_tree_skips_finished_kineto (base : List BEvent) (ev0 : EvState)
    {i : Nat} {b : BEvent}
    (hlen : lenOk base.length ev0)
    (hb : base[i]? = some b) (hkin : isKinetoB b = true)
    (hfin : finishedOf ev0 i = true)
    (hpre : ∀ j, parentOf ev0 j = some i → finishedOf ev0 j = true) :
    parentOf (build_tree base ev0) i = parentOf ev0 i := by
  have key := buildTreeGo_ind base
    (fun s _ => lenOk base.length s.ev ∧ finishedOf s.ev i = true ∧
      parentOf s.ev i = parentOf ev0 i ∧
      (∀ e ∈ s.stacks_, e.2 ≠ i) ∧
      (∀ j, parentOf s.ev j = some i → finishedOf s.ev j = true))
    (by
      rintro s j k ⟨h1, h2, h3, h4, h5⟩
      refine ⟨pop_event_lenOk base s j h1,
        pop_event_finished_mono base s j i h2,
        by rw [parentOf_congr (pop_event_parents base s j) i]; exact h3,
        ?_, ?_⟩
      · intro e he
        rcases pop_event_stacks base s j e he with h | ⟨hnf, p, hp, he2⟩
        · exact h4 e h
        · intro hei
          have hpi : p = i := by rw [← he2, hei]
          rw [hpi] at hp
          have hj := h5 j hp
          rw [hj] at hnf
          cases hnf
      · intro j' hj'
        rw [parentOf_congr (pop_event_parents base s j) j'] at hj'
        exact pop_event_finished_mono base s j j' (h5 j' hj'))
    (by rintro s q k h; exact h)
    (by
      rintro s k hk ⟨h1, h2, h3, h4, h5⟩
      by_cases hki : k = i
      · subst hki
        rw [push_event_skip hb hkin h2]
        exact ⟨h1, h2, h3, h4, h5⟩
      · refine ⟨push_event_lenOk base s k h1,
          push_event_finished_mono base s k i h2, ?_, ?_, ?_⟩
        · rcases push_event_parentOf base s k i with h | ⟨hik, _⟩
          · rw [h]; exact h3
          · exact absurd hik.symm hki
        · intro e he
          rcases push_event_stacks base s k e he with h | h
          · exact h4 e h
          · rw [h]; exact hki
        · intro j' hj'
          rcases push_event_parentOf base s k j' with h | ⟨hjk, w, ⟨t, hw⟩, hpw⟩
          · rw [h] at hj'
            exact push_event_finished_mono base s k j' (h5 j' hj')
          · rw [hpw] at hj'
            cases hj'
            exact absurd rfl (h4 (t, i) hw))
    base.length 0 ⟨ev0, [], []⟩ (by omega)
    ⟨hlen, hfin, rfl, by simp, hpre⟩
  exact key.2.2.1

/-- The effect of the second `setParents` pass at a flow-continuation
event (Kineto, async CPU-GPU link, not a flow start) whose flow id is in
the flow map: its parent is reassigned to the mapped flow start,
overriding whatever the linked activity set, and it is finished and
attached as that event's child. -/
theorem pass2Step_continuation {base : List BEvent} {mp : List (Nat × Nat)}
    {ev : EvState} {i p n : Nat} {b : BEvent} {d : Int} {fid : Nat}
    {linked : Option Nat}
    (hb : base[i]? = some b)
    (hpl : b.payload = .kineto d fid kLinkAsyncCpuGpu false linked)
    (halk : alookup fid mp = some p)
    (hn : lenOk n ev) (hi : i < n) (hp : p < n) :
    parentOf (setParentsPass2Step base mp ev i) i = some p ∧
    finishedOf (setParentsPass2Step base mp ev i) i = true ∧
    i ∈ childrenOf (setParentsPass2Step base mp ev i) p := by
  unfold setParentsPass2Step
  rw [hb]
  dsimp only
  rw [hpl]
  dsimp only
  rw [halk]
  dsimp only
  rw [if_pos ⟨rfl, rfl⟩]
  rw [parentOf_setParent_self ev (some p) (by rw [hn.1]; exact hi)]
  dsimp only
  refine ⟨?_, ?_, ?_⟩
  · rw [parentOf_mark_finished, parentOf_addChild]
    exact parentOf_setParent_self ev (some p) (by rw [hn.1]; exact hi)
  · exact finishedOf_mark_finished_self _
      (by simpa [addChild, setParent, hn.2.2] using hi)
  · rw [childrenOf_mark_finished,
      childrenOf_addChild_self _ i (by simpa [setParent, hn.2.1] using hp)]
    exact List.mem_append_right _ (by simp)

/-- Flow linkage overrides correlation linkage: a Kineto flow
continuation whose flow id maps to a flow start ends up parented to the
flow start (whatever its linked activity was), finished, and attached as
the flow start's child; the mapped event really is a matching flow
start. -/
theorem flow_overrides_linked (base : List BEvent)
    {i p : Nat} {b : BEvent} {d : Int} {fid : Nat} {linked : Option Nat}
    (hb : base[i]? = some b)
    (hpl : b.payload = .kineto d fid kLinkAsyncCpuGpu false linked)
    (halk : alookup fid (flowMap base) = some p) :
    parentOf (setParentsMain base) i = some p ∧
    finishedOf (setParentsMain base) i = true ∧
    i ∈ childrenOf (setParentsMain base) p ∧
    ∃ bs ds lks, base[p]? = some bs ∧
      bs.payload = Payload.kineto ds fid kLinkAsyncCpuGpu true lks := by
  have hn : i < base.length := lt_of_getElem?_some hb
  have hflow := pass1_flowMap_mem base _ _ _ (fid, p) (alookup_mem halk)
  rcases hflow with hmem | ⟨bs, ds, lks, hbs, hpls⟩
  · simp at hmem
  · have hp : p < base.length := lt_of_getElem?_some hbs
    rw [setParentsMain_eq]
    have hlev1 : lenOk base.length
        (setParentsPass1 base ([], initEv base.length)
          (idxFrom 0 base.length)).2 :=
      pass1_lenOk base _ _ _ (lenOk_initEv _)
    have hlevA : lenOk base.length
        ((idxFrom 0 i).foldl (setParentsPass2Step base (flowMap base))
          (setParentsPass1 base ([], initEv base.length)
            (idxFrom 0 base.length)).2) :=
      pass2_fold_lenOk base (flowMap base) _ _ hlev1
    have hstep := pass2Step_continuation hb hpl halk hlevA hn hp
    have hsplit : (idxFrom 0 base.length).foldl
        (setParentsPass2Step base (flowMap base))
        (setParentsPass1 base ([], initEv base.length)
          (idxFrom 0 base.length)).2 =
        (idxFrom (i + 1) (base.length - i - 1)).foldl
          (setParentsPass2Step base (flowMap base))
          (setParentsPass2Step base (flowMap base)
            ((idxFrom 0 i).foldl (setParentsPass2Step base (flowMap base))
              (setParentsPass1 base ([], initEv base.length)
                (idxFrom 0 base.length)).2) i) := by
      rw [idxFrom_split hn, List.foldl_append, List.foldl_cons]
    have hnotin : i ∉ idxFrom (i + 1) (base.length - i - 1) :=
      fun hmem => by have := (mem_idxFrom.mp hmem).1; omega
    refine ⟨?_, ?_, ?_, bs, ds, lks, hbs, hpls⟩
    · rw [hsplit, pass2_fold_parentOf_ne base (flowMap base) _ _ _ hnotin]
      exact hstep.1
    · rw [hsplit, pass2_fold_finishedOf_ne base (flowMap base) _ _ _ hnotin]
      exact hstep.2.1
    · rw [hsplit]
      exact pass2_fold_children_mono base (flowMap base) _ _ hstep.2.2

/-! ### The pending-end queue and the pop phase -/

theorem queueMin_mem_aux (base : List BEvent) (ev : EvState) :
    ∀ (q : List Nat) (acc : Option Nat) (j : Nat),
      q.foldl
        (fun acc j =>
          match acc with
          | none => some j
          | some m =>
            if endTimeNS base ev base.length j < endTimeNS base ev base.length m
            then some j else acc)
        acc = some j → acc = some j ∨ j ∈ q := by
  intro q
  induction q with
  | nil => intro acc j h; exact Or.inl h
  | cons a rest ih =>
    intro acc j h
    rcases ih _ j h with h2 | h2
    · rcases acc with _ | m
      · cases h2
        exact Or.inr (List.mem_cons_self _ _)
      · revert h2
        dsimp only
        split
        · intro h2
          cases h2
          exact Or.inr (List.mem_cons_self _ _)
        · exact fun h2 => Or.inl h2
    · exact Or.inr (List.mem_cons_of_mem a h2)

theorem queueMin_mem {base : List BEvent} {ev : EvState} {q : List Nat}
    {j : Nat} (h : queueMin base ev q = some j) : j ∈ q := by
  rcases queueMin_mem_aux base ev q none j h with h2 | h2
  · cases h2
  · exact h2

theorem queueMin_min_aux (base : List BEvent) (ev : EvState) :
    ∀ (q : List Nat) (acc : Option Nat) (j : Nat),
      q.foldl
        (fun acc j =>
          match acc with
          | none => some j
          | some m =>
            if endTimeNS base ev base.length j < endTimeNS base ev base.length m
            then some j else acc)
        acc = some j →
      (∀ x ∈ q, endTimeNS base ev base.length j ≤ endTimeNS base ev base.length x) ∧
      (∀ m, acc = some m →
        endTimeNS base ev base.length j ≤ endTimeNS base ev base.length m) := by
  intro q
  induction q with
  | nil =>
    intro acc j h
    refine ⟨fun x hx => absurd hx (by simp), fun m hm => ?_⟩
    have hacc : acc = some j := h
    rw [hacc] at hm
    cases hm
    omega
  | cons a rest ih =>
    intro acc j h
    have step := ih _ j h
    have hja : endTimeNS base ev base.length j ≤ endTimeNS base ev base.length a := by
      rcases acc with _ | m
      · exact step.2 a rfl
      · rcases hlt : decide (endTimeNS base ev base.length a
            < endTimeNS base ev base.length m) with h1 | h1
        · have hnlt := of_decide_eq_false hlt
          have := step.2 m (by dsimp only; rw [if_neg hnlt])
          omega
        · have hltt := of_decide_eq_true hlt
          have := step.2 a (by dsimp only; rw [if_pos hltt])
          omega
    refine ⟨fun x hx => ?_, fun m hm => ?_⟩
    · rcases List.mem_cons.mp hx with hx | hx
      · rw [hx]; exact hja
      · exact step.1 x hx
    · rcases acc with _ | m'
      · cases hm
      · cases hm
        rcases hlt : decide (endTimeNS base ev base.length a
            < endTimeNS base ev base.length m) with h1 | h1
        · have hnlt := of_decide_eq_false hlt
          exact step.2 m (by dsimp only; rw [if_neg hnlt])
        · have hltt := of_decide_eq_true hlt
          have h2 := step.2 a (by dsimp only; rw [if_pos hltt])
          omega

theorem queueMin_min {base : List BEvent} {ev : EvState} {q : List Nat}
    {j : Nat} (h : queueMin base ev q = some j) :
    ∀ x ∈ q, endTimeNS base ev base.length j ≤ endTimeNS base ev base.length x :=
  (queueMin_min_aux base ev q none j h).1

theorem queueMin_aux_ne_none (base : List BEvent) (ev : EvState) :
    ∀ (q : List Nat) (m : Nat),
      q.foldl
        (fun acc j =>
          match acc with
          | none => some j
          | some m =>
            if endTimeNS base ev base.length j < endTimeNS base ev base.length m
            then some j else acc)
        (some m) ≠ none := by
  intro q
  induction q with
  | nil => intro m h; cases h
  | cons a rest ih =>
    intro m
    show (rest.foldl _ (if _ then some a else some m)) ≠ none
    split
    · exact ih a
    · exact ih m

theorem queueMin_none {base : List BEvent} {ev : EvState} {q : List Nat}
    (h : queueMin base ev q = none) : q = [] := by
  rcases q with _ | ⟨a, rest⟩
  · rfl
  · exact absurd h (queueMin_aux_ne_none base ev rest a)

/-- After the pop phase of the stack replay loop, no queued event has an
end time strictly below the incoming start time: `pop_event` has been run
on every such event and it has left the queue. -/
theorem popLoop_ends_cleared (base : List BEvent) :
    ∀ (f : Nat) (s : BTState) (t : Int), s.endEvents.length ≤ f →
      ∀ j ∈ (popLoop base s t f).endEvents,
        t ≤ endTimeNS base (popLoop base s t f).ev base.length j := by
  intro f
  induction f with
  | zero =>
    intro s t hlen j hj
    have hnil : s.endEvents = [] := List.eq_nil_of_length_eq_zero (by omega)
    have hj' : j ∈ s.endEvents := hj
    rw [hnil] at hj'
    cases hj'
  | succ f ih =>
    intro s t hlen j hj
    revert hj
    unfold popLoop
    split
    · rename_i hmin
      intro hj
      rw [queueMin_none hmin] at hj
      cases hj
    · rename_i m hmin
      split
      · rename_i hlt
        intro hj
        refine ih _ t ?_ j hj
        show ((pop_event base s m).endEvents.erase m).length ≤ f
        rw [pop_event_endEvents]
        have hm : m ∈ s.endEvents := queueMin_mem hmin
        have := List.length_erase_add_one hm
        omega
      · rename_i hnlt
        intro hj
        have h1 : t ≤ endTimeNS base s.ev base.length m := by omega
        exact le_trans h1 (queueMin_min hmin j hj)

/-- When `build_tree` runs on start-time-sorted events from a fresh
state, every parent it assigns started no later than the child: a parent
is always taken from the open-frame map, which holds only
already-consumed (hence earlier-starting) events. -/
theorem build_tree_child_start_ge (base : List BEvent)
    (hsorted : ∀ i j : Nat, i ≤ j → j < base.length →
      startAt base i ≤ startAt base j) :
    ∀ p j, j ∈ childrenOf (build_tree base (initEv base.length)) p →
      startAt base p ≤ startAt base j := by
  have key := buildTreeGo_ind base
    (fun s k => lenOk base.length s.ev ∧
      (∀ j p, parentOf s.ev j = some p → p < k) ∧
      (∀ p j, j ∈ childrenOf s.ev p → startAt base p ≤ startAt base j) ∧
      (∀ e ∈ s.stacks_, e.2 < k))
    (by
      rintro s j k ⟨h1, h2, h3, h4⟩
      refine ⟨pop_event_lenOk base s j h1, ?_, ?_, ?_⟩
      · intro j' p hp
        rw [parentOf_congr (pop_event_parents base s j) j'] at hp
        exact h2 j' p hp
      · intro p j' hc
        rw [childrenOf_congr (pop_event_childrenL base s j) p] at hc
        exact h3 p j' hc
      · intro e he
        rcases pop_event_stacks base s j e he with h | ⟨_, p, hp, he2⟩
        · exact h4 e h
        · rw [he2]
          exact h2 j p hp)
    (by rintro s q k h; exact h)
    (by
      rintro s k hk ⟨h1, h2, h3, h4⟩
      refine ⟨push_event_lenOk base s k h1, ?_, ?_, ?_⟩
      · intro j' p hp
        rcases push_event_parentOf base s k j' with h | ⟨hjk, w, ⟨t, hw⟩, hpw⟩
        · rw [h] at hp
          have := h2 j' p hp
          omega
        · rw [hpw] at hp
          cases hp
          have := h4 (t, p) hw
          simp at this
          omega
      · intro p j' hc
        rcases push_event_childrenOf base s k p j' hc with h | ⟨hjk, t, hw⟩
        · exact h3 p j' h
        · have hpk : p < k := by
            have := h4 (t, p) hw
            simpa using this
          rw [hjk]
          exact hsorted p k (by omega) hk
      · intro e he
        rcases push_event_stacks base s k e he with h | h
        · have := h4 e h
          omega
        · omega)
    base.length 0 ⟨initEv base.length, [], []⟩ (by omega)
    ⟨lenOk_initEv _,
      (by intro j p hp; rw [parentOf_initEv] at hp; cases hp),
      (by intro p j hc; rw [childrenOf_initEv] at hc; cases hc),
      (by simp)⟩
  exact fun p j h => key.2.2.1 p j h

/-- Whether the event at index `i` is an `Allocation` or `OutOfMemory`
record. -/
def allocAt (base : List BEvent) (i : Nat) : Bool :=
  match base[i]? with
  | some b => isAllocOOMB b
  | none => false

theorem pushCore_ev1_finishedL (s : BTState) (i : Nat) (w : Option Nat) :
    (match w with
     | some p => addChild (setParent s.ev i (some p)) p i
     | none => s.ev).finishedL = s.ev.finishedL := by
  rcases w with _ | p <;> rfl

/-- `push_event` on an `Allocation`/`OutOfMemory` record with a real
start time finishes it on the spot: the open-frame map and the
pending-end queue are left untouched, and the record is marked
finished. -/
theorem push_event_allocOOM {base : List BEvent} {s : BTState} {k : Nat}
    {b : BEvent} (hb : base[k]? = some b) (halloc : isAllocOOMB b = true)
    (hstart : b.start_time_ns ≠ tMin)
    (hlen : k < s.ev.finishedL.length) :
    (push_event base s k).stacks_ = s.stacks_ ∧
    (push_event base s k).endEvents = s.endEvents ∧
    finishedOf (push_event base s k).ev k = true := by
  have hknf : isKinetoB b = false := by
    rcases isAllocOOMB_iff.mp halloc with h | h <;> simp [isKinetoB, h]
  unfold push_event
  rw [hb]
  dsimp only
  rw [if_neg (by simp [hknf])]
  unfold pushCore pushFinal
  dsimp only
  rw [endTimeNS_allocOOM base.length hb halloc]
  rw [if_neg (by omega), if_neg hstart]
  refine ⟨rfl, rfl, ?_⟩
  apply finishedOf_mark_finished_self
  rw [pushCore_ev1_finishedL]
  exact hlen

/-- In `build_tree` from a fresh state, every `Allocation`/`OutOfMemory`
record (with a real start time) ends up finished and childless: it is
finalized on insertion, never becomes an open frame, and no event is
ever attached beneath it. -/
theorem build_tree_allocOOM_leaf (base : List BEvent)
    (hstart : ∀ (i : Nat) (b : BEvent), base[i]? = some b →
      isAllocOOMB b = true → b.start_time_ns ≠ tMin) :
    ∀ (j : Nat) (b : BEvent), base[j]? = some b → isAllocOOMB b = true →
      finishedOf (build_tree base (initEv base.length)) j = true ∧
      childrenOf (build_tree base (initEv base.length)) j = [] := by
  have key := buildTreeGo_ind base
    (fun s k => lenOk base.length s.ev ∧
      (∀ e ∈ s.stacks_, allocAt base e.2 = false) ∧
      (∀ j p, parentOf s.ev j = some p → allocAt base p = false) ∧
      (∀ j, j < k → allocAt base j = true → finishedOf s.ev j = true) ∧
      (∀ j, allocAt base j = true → childrenOf s.ev j = []))
    (by
      rintro s j k ⟨h1, h2, h3, h4, h5⟩
      refine ⟨pop_event_lenOk base s j h1, ?_, ?_, ?_, ?_⟩
      · intro e he
        rcases pop_event_stacks base s j e he with h | ⟨_, p, hp, he2⟩
        · exact h2 e h
        · rw [he2]
          exact h3 j p hp
      · intro j' p hp
        rw [parentOf_congr (pop_event_parents base s j) j'] at hp
        exact h3 j' p hp
      · intro j' hj' ha
        exact pop_event_finished_mono base s j j' (h4 j' hj' ha)
      · intro j' ha
        rw [childrenOf_congr (pop_event_childrenL base s j) j']
        exact h5 j' ha)
    (by rintro s q k h; exact h)
    (by
      rintro s k hk ⟨h1, h2, h3, h4, h5⟩
      have hch : ∀ j', allocAt base j' = true →
          childrenOf (push_event base s k).ev j' = [] := by
        intro j' ha
        rw [List.eq_nil_iff_forall_not_mem]
        intro x hx
        rcases push_event_childrenOf base s k j' x hx with h | ⟨hxk, t, hw⟩
        · rw [h5 j' ha] at h
          cases h
        · have := h2 (t, j') hw
          simp at this
          rw [this] at ha
          cases ha
      have hpar : ∀ j' p, parentOf (push_event base s k).ev j' = some p →
          allocAt base p = false := by
        intro j' p hp
        rcases push_event_parentOf base s k j' with h | ⟨hjk, w, ⟨t, hw⟩, hpw⟩
        · rw [h] at hp
          exact h3 j' p hp
        · rw [hpw] at hp
          cases hp
          have := h2 (t, p) hw
          simpa using this
      rcases hak : allocAt base k with hf | ht
      · -- k is not an allocation record
        refine ⟨push_event_lenOk base s k h1, ?_, hpar, ?_, hch⟩
        · intro e he
          rcases push_event_stacks base s k e he with h | h
          · exact h2 e h
          · rw [h]
            exact hak
        · intro j' hj' ha
          by_cases hjk : j' = k
          · rw [hjk] at ha
            rw [ha] at hak
            cases hak
          · exact push_event_finished_mono base s k j'
              (h4 j' (by omega) ha)
      · -- k is an allocation record: it is finished immediately
        have hbk : ∃ bk, base[k]? = some bk ∧ isAllocOOMB bk = true := by
          unfold allocAt at hak
          rcases hb : base[k]? with _ | bk
          · rw [hb] at hak; cases hak
          · rw [hb] at hak
            exact ⟨bk, rfl, hak⟩
        obtain ⟨bk, hbk1, hbk2⟩ := hbk
        have hpush := push_event_allocOOM hbk1 hbk2
          (hstart k bk hbk1 hbk2) (by rw [h1.2.2]; exact hk)
        refine ⟨push_event_lenOk base s k h1, ?_, hpar, ?_, hch⟩
        · intro e he
          rw [hpush.1] at he
          exact h2 e he
        · intro j' hj' ha
          by_cases hjk : j' = k
          · rw [hjk]
            exact hpush.2.2
          · exact push_event_finished_mono base s k j'
              (h4 j' (by omega) ha))
    base.length 0 ⟨initEv base.length, [], []⟩ (by omega)
    ⟨lenOk_initEv _, (by simp),
      (by intro j p hp; rw [parentOf_initEv] at hp; cases hp),
      (by intro j hj ha; omega),
      (by intro j ha; exact childrenOf_initEv _ _)⟩
  intro j b hb halloc
  have hjlt : j < base.length := lt_of_getElem?_some hb
  have haj : allocAt base j = true := by
    unfold allocAt
    rw [hb]
    exact halloc
  exact ⟨key.2.2.2.1 j hjlt haj, key.2.2.2.2 j haj⟩

/-! ### Lemmas about the stable sort -/

/-- The sort key relation: ascending `start_time_ns_`. -/
def startLe (a b : BEvent) : Prop := a.start_time_ns ≤ b.start_time_ns

theorem mem_sortInsert {z x : BEvent} :
    ∀ {l : List BEvent}, z ∈ sortInsert x l → z = x ∨ z ∈ l := by
  intro l
  induction l with
  | nil => intro h; simpa [sortInsert] using h
  | cons y ys ih =>
    intro h
    unfold sortInsert at h
    split at h
    · rcases List.mem_cons.mp h with h | h
      · exact Or.inl h
      · exact Or.inr h
    · rcases List.mem_cons.mp h with h | h
      · exact Or.inr (by rw [h]; exact List.mem_cons_self y ys)
      · rcases ih h with h | h
        · exact Or.inl h
        · exact Or.inr (List.mem_cons_of_mem y h)

theorem sortInsert_pairwise (x : BEvent) :
    ∀ {l : List BEvent}, l.Pairwise startLe →
      (sortInsert x l).Pairwise startLe := by
  intro l
  induction l with
  | nil => intro _; simp [sortInsert]
  | cons y ys ih =>
    intro h
    rw [List.pairwise_cons] at h
    unfold sortInsert
    split
    · rename_i hxy
      rw [List.pairwise_cons]
      refine ⟨?_, List.pairwise_cons.mpr h⟩
      intro z hz
      rcases List.mem_cons.mp hz with h2 | h2
      · rw [h2]; exact hxy
      · exact le_trans hxy (h.1 z h2)
    · rename_i hxy
      rw [List.pairwise_cons]
      refine ⟨?_, ih h.2⟩
      intro z hz
      rcases mem_sortInsert hz with h2 | h2
      · rw [h2]; unfold startLe; omega
      · exact h.1 z h2

theorem sortInsert_perm (x : BEvent) :
    ∀ (l : List BEvent), (sortInsert x l).Perm (x :: l) := by
  intro l
  induction l with
  | nil => exact List.Perm.refl _
  | cons y ys ih =>
    unfold sortInsert
    split
    · exact List.Perm.refl _
    · exact (List.Perm.cons y ih).trans (List.Perm.swap x y ys)

theorem sortInsert_filter (t : Int) (x : BEvent) :
    ∀ (l : List BEvent),
      (sortInsert x l).filter (fun e => decide (e.start_time_ns = t)) =
        if x.start_time_ns = t
        then x :: l.filter (fun e => decide (e.start_time_ns = t))
        else l.filter (fun e => decide (e.start_time_ns = t)) := by
  intro l
  induction l with
  | nil => by_cases ht : x.start_time_ns = t <;> simp [sortInsert, ht]
  | cons y ys ih =>
    unfold sortInsert
    split
    · rename_i hxy
      by_cases ht : x.start_time_ns = t <;> simp [List.filter_cons, ht]
    · rename_i hxy
      rw [List.filter_cons, List.filter_cons, ih]
      by_cases hyt : y.start_time_ns = t
      · by_cases hxt : x.start_time_ns = t
        · exact absurd (by omega : x.start_time_ns ≤ y.start_time_ns) hxy
        · simp [hyt, hxt]
      · by_cases hxt : x.start_time_ns = t <;> simp [hyt, hxt]

theorem stableSortByStart_pairwise (l : List BEvent) :
    (stableSortByStart l).Pairwise startLe := by
  induction l with
  | nil => simp [stableSortByStart]
  | cons x xs ih => exact sortInsert_pairwise x ih

theorem stableSortByStart_perm (l : List BEvent) :
    (stableSortByStart l).Perm l := by
  induction l with
  | nil => exact List.Perm.refl _
  | cons x xs ih =>
    exact (sortInsert_perm x (stableSortByStart xs)).trans (List.Perm.cons x ih)

theorem stableSortByStart_filter (l : List BEvent) (t : Int) :
    (stableSortByStart l).filter (fun e => decide (e.start_time_ns = t)) =
      l.filter (fun e => decide (e.start_time_ns = t)) := by
  induction l with
  | nil => rfl
  | cons x xs ih =>
    show (sortInsert x (stableSortByStart xs)).filter _ = _
    rw [sortInsert_filter, ih]
    by_cases ht : x.start_time_ns = t <;> simp [List.filter_cons, ht]

/-! ### Lemmas about `calculate_unique_tensor_ids` -/

theorem writeBack_getElem (kept : List TSPair) (idMap : List (Nat × Nat)) :
    ∀ (events : List PEvent) (k j : Nat),
      (writeBack kept idMap k events)[j]? = (events[j]?).map (fun e =>
        match e with
        | .torchOp inputs =>
          PSlots.torchOp (opSlotIds kept idMap (k + j) 0 inputs)
        | .alloc _ _ => PSlots.alloc (slotId kept idMap (k + j, none))
        | .other => PSlots.other) := by
  intro events
  induction events with
  | nil => intro k j; rfl
  | cons e rest ih =>
    intro k j
    rcases j with _ | j
    · rcases e with inputs | ⟨ptr, sz⟩ | _ <;>
        simp [writeBack, List.getElem?_cons_zero]
    · simp only [writeBack, List.getElem?_cons_succ]
      rw [ih (k + 1) j]
      have harith : k + 1 + j = k + (j + 1) := by omega
      rw [harith]

theorem mem_keptTensors {events : List PEvent} {tp : TSPair}
    (h : tp ∈ keptTensors events) :
    tp ∈ (step1 events).tensors ∧
      tp.storage_id ∈ (step1 events).tensorSet := by
  unfold keptTensors at h
  exact ⟨List.mem_of_mem_filter h, by simpa using List.of_mem_filter h⟩

theorem slotId_none {kept : List TSPair} {idMap : List (Nat × Nat)}
    {r : Nat × Option Nat} (h : ∀ tp ∈ kept, tp.ref ≠ r) :
    slotId kept idMap r = none := by
  unfold slotId
  rw [List.find?_eq_none.mpr (fun tp htp => by simp [h tp htp])]

/-! ### The claims -/

/-- C1, counterexample: two torch ops on one thread with overlapping but
non-nested intervals, A = [0,10] and B = [5,20], presented sorted by
start time.  `build_tree` makes B a child of A, both are finalized, yet
B's reported end time (20) exceeds A's (10): the parent's interval does
not contain the child's, so the containment half of the claim is false
as stated. -/
theorem claim_C1_counterexample :
    childrenOf (build_tree
      [⟨0, 1, .torchOp 10 0⟩, ⟨5, 1, .torchOp 20 0⟩] (initEv 2)) 0 = [1] ∧
    finishedOf (build_tree
      [⟨0, 1, .torchOp 10 0⟩, ⟨5, 1, .torchOp 20 0⟩] (initEv 2)) 0 = true ∧
    finishedOf (build_tree
      [⟨0, 1, .torchOp 10 0⟩, ⟨5, 1, .torchOp 20 0⟩] (initEv 2)) 1 = true ∧
    endTimeNS [⟨0, 1, .torchOp 10 0⟩, ⟨5, 1, .torchOp 20 0⟩]
      (build_tree [⟨0, 1, .torchOp 10 0⟩, ⟨5, 1, .torchOp 20 0⟩] (initEv 2))
      2 0 <
    endTimeNS [⟨0, 1, .torchOp 10 0⟩, ⟨5, 1, .torchOp 20 0⟩]
      (build_tree [⟨0, 1, .torchOp 10 0⟩, ⟨5, 1, .torchOp 20 0⟩] (initEv 2))
      2 1 := by decide

/-- C1 (amended): for the forest `build_tree` produces from
start-time-sorted fresh events, (a) once a node is finalized its reported
end time is at least its start time (the `SOFT_ASSERT` clamp in
`Result::endTimeNS` guarantees this), and (b) every child's start time is
at least its parent's start time (the parent is always an
earlier-starting open frame).  Full interval containment — the child's
end time also lying inside the parent's interval — does not hold in
general (see the counterexample with overlapping non-nested events). -/
theorem claim_C1_tree_wellformedness (base : List BEvent)
    (hsorted : ∀ i j : Nat, i ≤ j → j < base.length →
      startAt base i ≤ startAt base j) :
    (∀ (i : Nat) (b : BEvent), base[i]? = some b →
      finishedOf (build_tree base (initEv base.length)) i = true →
      b.start_time_ns ≤
        endTimeNS base (build_tree base (initEv base.length)) base.length i) ∧
    (∀ (p j : Nat) (bp bj : BEvent),
      j ∈ childrenOf (build_tree base (initEv base.length)) p →
      base[p]? = some bp → base[j]? = some bj →
      bp.start_time_ns ≤ bj.start_time_ns) := by
  constructor
  · intro i b hb hf
    exact endTimeNS_ge_start_of_finished base.length hb hf
  · intro p j bp bj hc hbp hbj
    have h := build_tree_child_start_ge base hsorted p j hc
    unfold startAt at h
    rw [hbp, hbj] at h
    exact h

/-- C1 witness: the amended claim evaluated on the three-event scenario
A = [0,100], B = [10,50], C = [60,90] on one thread. -/
theorem claim_C1_tree_wellformedness_witness :
    (BEvent.mk 0 1 (.torchOp 100 0)).start_time_ns ≤
      endTimeNS [⟨0, 1, .torchOp 100 0⟩, ⟨10, 1, .torchOp 50 0⟩,
          ⟨60, 1, .torchOp 90 0⟩]
        (build_tree [⟨0, 1, .torchOp 100 0⟩, ⟨10, 1, .torchOp 50 0⟩,
            ⟨60, 1, .torchOp 90 0⟩]
          (initEv ([⟨0, 1, .torchOp 100 0⟩, ⟨10, 1, .torchOp 50 0⟩,
            ⟨60, 1, .torchOp 90 0⟩] : List BEvent).length))
        ([⟨0, 1, .torchOp 100 0⟩, ⟨10, 1, .torchOp 50 0⟩,
          ⟨60, 1, .torchOp 90 0⟩] : List BEvent).length 0 ∧
    (BEvent.mk 0 1 (.torchOp 100 0)).start_time_ns ≤
      (BEvent.mk 10 1 (.torchOp 50 0)).start_time_ns := by
  have h := claim_C1_tree_wellformedness
    [⟨0, 1, .torchOp 100 0⟩, ⟨10, 1, .torchOp 50 0⟩, ⟨60, 1, .torchOp 90 0⟩]
    (by
      intro i j hij hj
      have h3 : j < 3 := by simpa using hj
      interval_cases j <;> interval_cases i <;> decide)
  exact ⟨h.1 0 (BEvent.mk 0 1 (.torchOp 100 0)) (by decide) (by decide),
    h.2 0 1 (BEvent.mk 0 1 (.torchOp 100 0)) (BEvent.mk 10 1 (.torchOp 50 0))
      (by decide) (by decide) (by decide)⟩

/-- C2: three torch ops on one thread, A = [0,100], B = [10,50],
C = [60,90], presented to `build_tree` sorted by start time, produce A
as a root (no parent) with children exactly [B, C] in that sibling
order; before C is pushed, the pop phase has already closed B (B is
finished and has left the pending-end queue).  In general, after the pop
phase of the replay loop no queued event's end time is strictly below
the incoming start time. -/
theorem claim_C2_example_scenario :
    (childrenOf (build_tree [⟨0, 1, .torchOp 100 0⟩, ⟨10, 1, .torchOp 50 0⟩,
        ⟨60, 1, .torchOp 90 0⟩] (initEv 3)) 0 = [1, 2] ∧
     parentOf (build_tree [⟨0, 1, .torchOp 100 0⟩, ⟨10, 1, .torchOp 50 0⟩,
        ⟨60, 1, .torchOp 90 0⟩] (initEv 3)) 0 = none ∧
     parentOf (build_tree [⟨0, 1, .torchOp 100 0⟩, ⟨10, 1, .torchOp 50 0⟩,
        ⟨60, 1, .torchOp 90 0⟩] (initEv 3)) 1 = some 0 ∧
     parentOf (build_tree [⟨0, 1, .torchOp 100 0⟩, ⟨10, 1, .torchOp 50 0⟩,
        ⟨60, 1, .torchOp 90 0⟩] (initEv 3)) 2 = some 0 ∧
     finishedOf (popLoop [⟨0, 1, .torchOp 100 0⟩, ⟨10, 1, .torchOp 50 0⟩,
         ⟨60, 1, .torchOp 90 0⟩]
        (push_event [⟨0, 1, .torchOp 100 0⟩, ⟨10, 1, .torchOp 50 0⟩,
            ⟨60, 1, .torchOp 90 0⟩]
          (push_event [⟨0, 1, .torchOp 100 0⟩, ⟨10, 1, .torchOp 50 0⟩,
              ⟨60, 1, .torchOp 90 0⟩]
            ⟨initEv 3, [], []⟩ 0) 1) 60 2).ev 1 = true ∧
     (popLoop [⟨0, 1, .torchOp 100 0⟩, ⟨10, 1, .torchOp 50 0⟩,
         ⟨60, 1, .torchOp 90 0⟩]
        (push_event [⟨0, 1, .torchOp 100 0⟩, ⟨10, 1, .torchOp 50 0⟩,
            ⟨60, 1, .torchOp 90 0⟩]
          (push_event [⟨0, 1, .torchOp 100 0⟩, ⟨10, 1, .torchOp 50 0⟩,
              ⟨60, 1, .torchOp 90 0⟩]
            ⟨initEv 3, [], []⟩ 0) 1) 60 2).endEvents = [0]) ∧
    (∀ (base : List BEvent) (s : BTState) (t : Int),
      ∀ j ∈ (popLoop base s t s.endEvents.length).endEvents,
        t ≤ endTimeNS base (popLoop base s t s.endEvents.length).ev
          base.length j) := by
  constructor
  · decide
  · intro base s t j hj
    exact popLoop_ends_cleared base s.endEvents.length s t (le_refl _) j hj

/-- C2 witness: the pop-phase guarantee evaluated on a singleton queue
whose event ends at 100, against an incoming start time of 10. -/
theorem claim_C2_example_scenario_witness :
    (10 : Int) ≤ endTimeNS [⟨0, 1, .torchOp 100 0⟩]
      (popLoop [⟨0, 1, .torchOp 100 0⟩]
        ⟨initEv 1, [(1, 0)], [0]⟩ 10
        (BTState.mk (initEv 1) [(1, 0)] [0]).endEvents.length).ev
      ([⟨0, 1, .torchOp 100 0⟩] : List BEvent).length 0 :=
  claim_C2_example_scenario.2 [⟨0, 1, .torchOp 100 0⟩]
    ⟨initEv 1, [(1, 0)], [0]⟩ 10 0 (by decide)

/-- C3: correlation ids are pairwise distinct across the events of one
session.  `EventBlock::EventBlock` takes a fresh atomic counter value per
chunk and derives the base id `1 + ChunkSize * counter`;
`EventBlock::correlation_id` adds the event's positional offset
(`< ChunkSize`, as the debug assert states).  Provided the `uint64_t`
arithmetic does not wrap (the id stays below `2 ^ 64`), two events that
differ in chunk counter value or in offset get different ids. -/
theorem claim_C3_correlation_id_unique (ChunkSize c1 o1 c2 o2 : Nat)
    (ho1 : o1 < ChunkSize) (ho2 : o2 < ChunkSize)
    (hne : (c1, o1) ≠ (c2, o2))
    (hb1 : 1 + ChunkSize * c1 + o1 < 2 ^ 64)
    (hb2 : 1 + ChunkSize * c2 + o2 < 2 ^ 64) :
    correlation_id ChunkSize c1 o1 ≠ correlation_id ChunkSize c2 o2 := by
  have hC : 0 < ChunkSize := by omega
  unfold correlation_id id_start
  rw [Nat.mod_eq_of_lt (a := 1 + ChunkSize * c1) (by omega),
    Nat.mod_eq_of_lt (a := 1 + ChunkSize * c2) (by omega),
    Nat.mod_eq_of_lt hb1, Nat.mod_eq_of_lt hb2]
  intro heq
  apply hne
  have he : ChunkSize * c1 + o1 = ChunkSize * c2 + o2 := by omega
  have hc : c1 = c2 := by
    have h1 : (ChunkSize * c1 + o1) / ChunkSize = c1 := by
      rw [Nat.mul_add_div hC, Nat.div_eq_of_lt ho1]
      omega
    have h2 : (ChunkSize * c2 + o2) / ChunkSize = c2 := by
      rw [Nat.mul_add_div hC, Nat.div_eq_of_lt ho2]
      omega
    rw [← h1, ← h2, he]
  subst hc
  have ho : o1 = o2 := by omega
  rw [ho]

/-- C3 witness: with chunk size 2, the second event of chunk 0 and the
first event of chunk 1 receive different correlation ids. -/
theorem claim_C3_correlation_id_unique_witness :
    correlation_id 2 0 1 ≠ correlation_id 2 1 0 :=
  claim_C3_correlation_id_unique 2 0 1 1 0 (by decide) (by decide)
    (by decide) (by decide) (by decide)

/-- C4, counterexample: on exactly the claimed record sequence —
allocation at address 100 of size +16, free at 100 of size −16,
allocation at 100 of size +32, with no operation-input references —
`calculate_unique_tensor_ids` assigns NO final identity to either
allocation: both clusters are pruned by the `tensor_set` filter
(collection.cpp:885-894) because no op input referenced them, so the two
allocations do not receive two distinct identities. -/
theorem claim_C4_counterexample :
    calculate_unique_tensor_ids
      [.alloc 100 16, .alloc 100 (-16), .alloc 100 32] =
      [.alloc none, .alloc none, .alloc none] := by decide

/-- C4 (amended): the live-clustering phase does separate the two
allocations at the reused address (the free removes the address from the
live map, so the reallocation draws a fresh provisional cluster id), but
a final identity is only written back for clusters referenced by some
operation input.  Interleaving an op input referencing address 100
through handle 7 before the free and another through handle 8 after the
reallocation, the two allocations receive the distinct final identities
0 and 1 (the free record, being an allocation record in the old cluster,
shares identity 0). -/
theorem claim_C4_amended :
    calculate_unique_tensor_ids
      [.alloc 100 16, .torchOp [⟨some 7, some 100⟩], .alloc 100 (-16),
       .alloc 100 32, .torchOp [⟨some 8, some 100⟩]] =
      [.alloc (some 0), .torchOp [some 0], .alloc (some 0),
       .alloc (some 1), .torchOp [some 1]] := by decide

/-- C5: flow linkage overrides correlation linkage.  A Kineto activity
that is a flow continuation of the async CPU-GPU kind (flow type
`kLinkAsyncCpuGpu`, not a flow start) and whose linked activity is `l`,
when its flow id maps to a flow start `p ≠ l`, ends up with the flow
start `p` as its final parent — not the linked activity — and is
finished and attached as `p`'s child; the mapped event really is a
matching async flow start. -/
theorem claim_C5_flow_overrides (base : List BEvent)
    (i p l : Nat) (b : BEvent) (d : Int) (fid : Nat)
    (hb : base[i]? = some b)
    (hpl : b.payload = .kineto d fid kLinkAsyncCpuGpu false (some l))
    (halk : alookup fid (flowMap base) = some p)
    (hne : p ≠ l) :
    parentOf (setParentsMain base) i = some p ∧
    parentOf (setParentsMain base) i ≠ some l ∧
    finishedOf (setParentsMain base) i = true ∧
    i ∈ childrenOf (setParentsMain base) p ∧
    ∃ bs ds lks, base[p]? = some bs ∧
      bs.payload = Payload.kineto ds fid kLinkAsyncCpuGpu true lks := by
  have h := flow_overrides_linked base hb hpl halk
  refine ⟨h.1, ?_, h.2.1, h.2.2.1, h.2.2.2⟩
  rw [h.1]
  simp [hne]

/-- C5 witness: result 0 is a torch op, result 1 a Kineto flow start of
flow 5, result 2 a Kineto continuation of flow 5 whose linked activity
is result 0; after `setParents`, result 2 is parented to the flow start
(result 1), not to its linked activity. -/
theorem claim_C5_flow_overrides_witness :
    parentOf (setParentsMain [⟨0, 1, .torchOp 100 0⟩,
      ⟨10, 1, .kineto 5 5 1 true (some 0)⟩,
      ⟨20, 1, .kineto 5 5 1 false (some 0)⟩]) 2 = some 1 ∧
    parentOf (setParentsMain [⟨0, 1, .torchOp 100 0⟩,
      ⟨10, 1, .kineto 5 5 1 true (some 0)⟩,
      ⟨20, 1, .kineto 5 5 1 false (some 0)⟩]) 2 ≠ some 0 ∧
    finishedOf (setParentsMain [⟨0, 1, .torchOp 100 0⟩,
      ⟨10, 1, .kineto 5 5 1 true (some 0)⟩,
      ⟨20, 1, .kineto 5 5 1 false (some 0)⟩]) 2 = true ∧
    2 ∈ childrenOf (setParentsMain [⟨0, 1, .torchOp 100 0⟩,
      ⟨10, 1, .kineto 5 5 1 true (some 0)⟩,
      ⟨20, 1, .kineto 5 5 1 false (some 0)⟩]) 1 ∧
    ∃ bs ds lks, ([⟨0, 1, .torchOp 100 0⟩,
      ⟨10, 1, .kineto 5 5 1 true (some 0)⟩,
      ⟨20, 1, .kineto 5 5 1 false (some 0)⟩] : List BEvent)[1]? = some bs ∧
      bs.payload = Payload.kineto ds 5 kLinkAsyncCpuGpu true lks :=
  claim_C5_flow_overrides
    [⟨0, 1, .torchOp 100 0⟩, ⟨10, 1, .kineto 5 5 1 true (some 0)⟩,
     ⟨20, 1, .kineto 5 5 1 false (some 0)⟩]
    2 1 0 ⟨20, 1, .kineto 5 5 1 false (some 0)⟩ 5 5
    (by decide) (by decide) (by decide) (by decide)

/-- Sufficient decidable check that every Kineto linked-activity index in
a result list is in range (a `shared_ptr` to a real result in C++). -/
def linkedInRangeB (base : List BEvent) : Bool :=
  base.all (fun b =>
    match b.payload with
    | .kineto _ _ _ _ (some q) => decide (q < base.length)
    | _ => true)

theorem linkedInRange_of_B {base : List BEvent}
    (h : linkedInRangeB base = true) :
    ∀ (j : Nat) (b : BEvent) (d : Int) (fid fty : Nat) (fst : Bool)
      (lk : Option Nat) (q : Nat), base[j]? = some b →
      b.payload = Payload.kineto d fid fty fst lk → lk = some q →
      q < base.length := by
  intro j b d fid fty fst lk q hb hpl hlk
  have hmem : b ∈ base := by
    have hj := lt_of_getElem?_some hb
    have := List.getElem?_eq_getElem hj
    rw [this] at hb
    cases hb
    exact List.getElem_mem hj
  have hall := List.all_eq_true.mp h b hmem
  rw [hpl] at hall
  rw [hlk] at hall
  exact of_decide_eq_true hall

/-- C6: (a) every merged external activity that receives a parent during
the `setParents` merge is, at that point, marked finished and attached to
that parent's child list; (b) the general tree-building pass skips every
already-finished Kineto event outright and never changes its parent
(which `pop_event` cannot touch either, as the event never enters the
open-frame map or the pending-end queue). -/
theorem claim_C6_premerge_authoritative :
    (∀ (base : List BEvent), linkedInRangeB base = true →
      ∀ i p, parentOf (setParentsMain base) i = some p →
        finishedOf (setParentsMain base) i = true ∧
        i ∈ childrenOf (setParentsMain base) p) ∧
    (∀ (base : List BEvent) (ev0 : EvState) (i : Nat) (b : BEvent),
      lenOk base.length ev0 → base[i]? = some b → isKinetoB b = true →
      finishedOf ev0 i = true →
      (∀ j, parentOf ev0 j = some i → finishedOf ev0 j = true) →
      parentOf (build_tree base ev0) i = parentOf ev0 i) :=
  ⟨fun base hl => setParents_attach base (linkedInRange_of_B hl),
   fun base ev0 i b h1 h2 h3 h4 h5 =>
     build_tree_skips_finished_kineto base ev0 h1 h2 h3 h4 h5⟩

/-- C6 witness: (a) evaluated on the flow scenario of C5's witness,
where result 2 received parent 1; (b) evaluated on a two-event list
whose Kineto event 1 entered `build_tree` finished with parent 0: the
tree builder leaves that parent alone. -/
theorem claim_C6_premerge_authoritative_witness :
    (finishedOf (setParentsMain [⟨0, 1, .torchOp 100 0⟩,
        ⟨10, 1, .kineto 5 5 1 true (some 0)⟩,
        ⟨20, 1, .kineto 5 5 1 false (some 0)⟩]) 2 = true ∧
      2 ∈ childrenOf (setParentsMain [⟨0, 1, .torchOp 100 0⟩,
        ⟨10, 1, .kineto 5 5 1 true (some 0)⟩,
        ⟨20, 1, .kineto 5 5 1 false (some 0)⟩]) 1) ∧
    parentOf (build_tree [⟨0, 1, .torchOp 100 0⟩,
        ⟨10, 1, .kineto 5 9 1 false (some 0)⟩]
      ⟨[none, some 0], [[1], []], [false, true]⟩) 1 =
      parentOf ⟨[none, some 0], [[1], []], [false, true]⟩ 1 :=
  ⟨claim_C6_premerge_authoritative.1
      [⟨0, 1, .torchOp 100 0⟩, ⟨10, 1, .kineto 5 5 1 true (some 0)⟩,
       ⟨20, 1, .kineto 5 5 1 false (some 0)⟩]
      (by decide) 2 1 (by decide),
   claim_C6_premerge_authoritative.2
      [⟨0, 1, .torchOp 100 0⟩, ⟨10, 1, .kineto 5 9 1 false (some 0)⟩]
      ⟨[none, some 0], [[1], []], [false, true]⟩ 1
      ⟨10, 1, .kineto 5 9 1 false (some 0)⟩
      ⟨rfl, rfl, rfl⟩ (by decide) (by decide) (by decide)
      (by
        intro j hj
        have hjl : j < 2 := by simpa using parentOf_lt_of_some hj
        interval_cases j <;> exact absurd hj (by decide))⟩

/-- C7: a torch op whose recorded end time is the `tMin` sentinel, once
finished with a resolved parent, reports its parent's end time as its
own (`torchOpEndNS`), and the reported end time is never earlier than
the event's own start time (`SOFT_ASSERT` clamp). -/
theorem claim_C7_open_ended_inheritance (base : List BEvent) (ev : EvState)
    (fuel i p : Nat) (b : BEvent) (ft : Nat)
    (hb : base[i]? = some b) (hpl : b.payload = .torchOp tMin ft)
    (hfin : finishedOf ev i = true) (hpar : parentOf ev i = some p)
    (hge : b.start_time_ns ≤ endTimeNS base ev fuel p) :
    endTimeNS base ev (fuel + 1) i = endTimeNS base ev fuel p ∧
    b.start_time_ns ≤ endTimeNS base ev (fuel + 1) i := by
  have h1 : endTimeNS base ev (fuel + 1) i
      = endTimeStep base ev (endTimeNS base ev fuel) i := rfl
  refine ⟨?_, endTimeNS_ge_start_of_finished (fuel + 1) hb hfin⟩
  rw [h1]
  unfold endTimeStep
  rw [hb]
  dsimp only
  rw [hpl]
  dsimp only
  rw [if_pos ⟨hfin, rfl⟩, hpar]
  dsimp only
  rw [hfin]
  show endClamp true _ _ = _
  unfold endClamp
  show (if _ < _ then _ else _) = _
  rw [if_neg (by omega)]

/-- C7 witness: a finished parent [0,50] and a finished sentinel-ended
child starting at 10 whose parent pointer is resolved; the child reports
end time 50. -/
theorem claim_C7_open_ended_inheritance_witness :
    endTimeNS [⟨0, 1, .torchOp 50 0⟩, ⟨10, 1, .torchOp tMin 0⟩]
      ⟨[none, some 0], [[1], []], [true, true]⟩ 2 1 =
    endTimeNS [⟨0, 1, .torchOp 50 0⟩, ⟨10, 1, .torchOp tMin 0⟩]
      ⟨[none, some 0], [[1], []], [true, true]⟩ 1 0 ∧
    (BEvent.mk 10 1 (.torchOp tMin 0)).start_time_ns ≤
      endTimeNS [⟨0, 1, .torchOp 50 0⟩, ⟨10, 1, .torchOp tMin 0⟩]
        ⟨[none, some 0], [[1], []], [true, true]⟩ 2 1 :=
  claim_C7_open_ended_inheritance
    [⟨0, 1, .torchOp 50 0⟩, ⟨10, 1, .torchOp tMin 0⟩]
    ⟨[none, some 0], [[1], []], [true, true]⟩ 1 1 0
    ⟨10, 1, .torchOp tMin 0⟩ 0 (by decide) (by decide) (by decide)
    (by decide) (by decide)

/-- C8: an allocation record whose live-address cluster is never
referenced by any operation-input buffer reference receives no final
buffer identity: its pair is pruned before the union and coalesce steps,
and step 4 writes nothing back to it. -/
theorem claim_C8_unreferenced_alloc_pruned (events : List PEvent)
    (ei : Nat) (ptr : Nat) (sz : Int)
    (hev : events[ei]? = some (.alloc ptr sz))
    (hunref : ∀ tp ∈ (step1 events).tensors, tp.ref = (ei, none) →
      tp.storage_id ∉ (step1 events).tensorSet) :
    (calculate_unique_tensor_ids events)[ei]? = some (.alloc none) := by
  unfold calculate_unique_tensor_ids
  rw [writeBack_getElem, hev]
  have hnone :
      slotId (keptTensors events) (finalIdMap events) (0 + ei, none) = none := by
    apply slotId_none
    intro tp htp hr
    obtain ⟨hmem, hset⟩ := mem_keptTensors htp
    exact absurd hset (hunref tp hmem (by simpa using hr))
  simp only [Option.map_some']
  rw [hnone]

/-- C8 witness: a lone allocation with no op references receives no
identity. -/
theorem claim_C8_unreferenced_alloc_pruned_witness :
    (calculate_unique_tensor_ids [.alloc 5 16])[0]? = some (.alloc none) :=
  claim_C8_unreferenced_alloc_pruned [.alloc 5 16] 0 5 16
    (by decide) (by decide)

/-- C9: the post-collection sort is a stable sort by start time: the
output is ascending in `start_time_ns_`, is a permutation of the input,
and for every start-time value the events carrying it appear in exactly
their input order (so sibling order among ties is deterministic and
matches the input's relative order; the rest of the pipeline is a pure
function of the sorted list). -/
theorem claim_C9_stable_sort_determinism (l : List BEvent) (t : Int) :
    (stableSortByStart l).Pairwise startLe ∧
    (stableSortByStart l).Perm l ∧
    (stableSortByStart l).filter (fun e => decide (e.start_time_ns = t)) =
      l.filter (fun e => decide (e.start_time_ns = t)) :=
  ⟨stableSortByStart_pairwise l, stableSortByStart_perm l,
   stableSortByStart_filter l t⟩

/-- C10: Allocation and OutOfMemory events are zero-duration instants:
(a) their reported end time always equals their start time; (b)
`push_event` finalizes them immediately on insertion, leaving the
open-frame map and the pending-end queue untouched; (c) in the final
forest built from fresh sorted events they are finished and have no
children.  (The start time must not be the `tMin` sentinel, which for
these events would make `endTimeNS` hit the sentinel branch; recorded
allocation timestamps are real clock readings.) -/
theorem claim_C10_alloc_oom_instant :
    (∀ (base : List BEvent) (ev : EvState) (fuel i : Nat) (b : BEvent),
      base[i]? = some b → isAllocOOMB b = true →
      endTimeNS base ev fuel i = b.start_time_ns) ∧
    (∀ (base : List BEvent) (s : BTState) (k : Nat) (b : BEvent),
      base[k]? = some b → isAllocOOMB b = true → b.start_time_ns ≠ tMin →
      k < s.ev.finishedL.length →
      (push_event base s k).stacks_ = s.stacks_ ∧
      (push_event base s k).endEvents = s.endEvents ∧
      finishedOf (push_event base s k).ev k = true) ∧
    (∀ (base : List BEvent),
      (∀ (i : Nat) (b : BEvent), base[i]? = some b → isAllocOOMB b = true →
        b.start_time_ns ≠ tMin) →
      ∀ (j : Nat) (b : BEvent), base[j]? = some b → isAllocOOMB b = true →
        finishedOf (build_tree base (initEv base.length)) j = true ∧
        childrenOf (build_tree base (initEv base.length)) j = []) :=
  ⟨fun base ev fuel i b hb hk => endTimeNS_allocOOM fuel hb hk,
   fun base s k b hb hk hs hl => push_event_allocOOM hb hk hs hl,
   fun base hstart => build_tree_allocOOM_leaf base hstart⟩

/-- C10 witness: a lone allocation event at time 3 reports end time 3,
is finished by its own push without touching the open-frame map or the
queue, and is a childless finished leaf of the final forest. -/
theorem claim_C10_alloc_oom_instant_witness :
    endTimeNS [⟨3, 1, .allocation⟩] (initEv 1) 1 0 =
      (BEvent.mk 3 1 .allocation).start_time_ns ∧
    ((push_event [⟨3, 1, .allocation⟩] ⟨initEv 1, [], []⟩ 0).stacks_ =
        (BTState.mk (initEv 1) [] []).stacks_ ∧
      (push_event [⟨3, 1, .allocation⟩] ⟨initEv 1, [], []⟩ 0).endEvents =
        (BTState.mk (initEv 1) [] []).endEvents ∧
      finishedOf (push_event [⟨3, 1, .allocation⟩] ⟨initEv 1, [], []⟩ 0).ev 0
        = true) ∧
    (finishedOf (build_tree [⟨3, 1, .allocation⟩]
        (initEv ([⟨3, 1, .allocation⟩] : List BEvent).length)) 0 = true ∧
      childrenOf (build_tree [⟨3, 1, .allocation⟩]
        (initEv ([⟨3, 1, .allocation⟩] : List BEvent).length)) 0 = []) :=
  ⟨claim_C10_alloc_oom_instant.1 [⟨3, 1, .allocation⟩] (initEv 1) 1 0
      ⟨3, 1, .allocation⟩ (by decide) (by decide),
   claim_C10_alloc_oom_instant.2.1 [⟨3, 1, .allocation⟩]
      ⟨initEv 1, [], []⟩ 0 ⟨3, 1, .allocation⟩
      (by decide) (by decide) (by decide) (by decide),
   claim_C10_alloc_oom_instant.2.2 [⟨3, 1, .allocation⟩]
      (by
        intro i b hb ha
        have h1 : i < 1 := by simpa using lt_of_getElem?_some hb
        interval_cases i
        simp only [List.getElem?_cons_zero] at hb
        cases hb
        decide)
      0 ⟨3, 1, .allocation⟩ (by decide) (by decide)⟩
